import Mathlib

/-!
Verification development for the `bitburner-ipvgo-rust` Go engine.

This file gives a shallow embedding of the chain-based board engine of
`src/board/src/lib.rs`, the transposition table and alpha-beta probe step of
`src/evaluation/src/lib.rs` / `src/evaluation/src/alphabeta.rs`, and proves
properties of these embeddings.

Modelling conventions:
* Rust `usize`/`u64` values are modelled as `Nat` (no arithmetic overflow is
  exercised by the engine on these values), `f32` scores and komi as `ℚ`
  (all score arithmetic in the engine is additions of small integers to the
  komi, which the rational model captures; the summation order over unordered
  hash sets is unspecified in the source, and `ℚ` addition is commutative).
* `HashSet<usize>` fields are modelled as `Finset ℕ`; where the source
  iterates over a hash set (an unspecified order), the model iterates in
  ascending order — a canonical resolution of the source's nondeterminism.
* `DefaultHasher`-based position hashing (`compute_board_hash`) is a pure
  function of the tile vector; the model uses the tile vector itself as the
  hash value (an injective stand-in for the 64-bit hash).
* Rust panics (out-of-bounds indexing, `unwrap` of `None`) are modelled
  either by the `BoardErr.panicked` result or, inside loops, by skipping the
  offending iteration; each such spot is marked with a comment. These paths
  are unreachable from boards built by `from_rep`/`new`.
-/

namespace IpvGo

/-- `Tile` from src/board/src/lib.rs. -/
inductive Tile
  | white
  | black
  | dead
  | free
deriving DecidableEq, Repr

/-- `Tile::to_char`. -/
def Tile.to_char : Tile → Char
  | Tile.white => 'O'
  | Tile.black => 'X'
  | Tile.dead => '#'
  | Tile.free => '.'

/-- `Tile::from_char`. -/
def Tile.from_char : Char → Option Tile
  | 'O' => some Tile.white
  | 'X' => some Tile.black
  | '#' => some Tile.dead
  | '.' => some Tile.free
  | _ => none

/-- `Turn` from src/board/src/lib.rs. -/
inductive Turn
  | white
  | black
  | none
deriving DecidableEq, Repr

/-- `Turn::next`. -/
def Turn.next : Turn → Turn
  | Turn.white => Turn.black
  | Turn.black => Turn.white
  | Turn.none => Turn.none

/-- `Turn::get_placing_color`. -/
def Turn.get_placing_color : Turn → Option Tile
  | Turn.black => some Tile.black
  | Turn.white => some Tile.white
  | Turn.none => Option.none

/-- `Move` from src/board/src/lib.rs. -/
inductive Move
  | place (pos : ℕ)
  | coords (xy : ℕ × ℕ)
  | pass
deriving DecidableEq, Repr

/-- `Chain` from src/board/src/lib.rs; the `HashSet<usize>` fields become
`Finset ℕ`. -/
structure Chain where
  id : ℕ
  tile : Tile
  positions : Finset ℕ
  liberties : Finset ℕ
  adjacent : Finset ℕ
deriving DecidableEq

/-- `Mod` from src/board/src/lib.rs: the three undo-journal entry kinds. -/
inductive Mod
  | assignment (p old : ℕ)
  | addition (a : ℕ)
  | change (a : ℕ) (c : Chain)
deriving DecidableEq

/-- `MoveChange` from src/board/src/lib.rs. `board_hash : u64` is modelled by
the pre-move tile vector (see the hashing convention above). -/
structure MoveChange where
  action : Move
  previous_turn : Turn
  board_hash : List Tile
  mods : List Mod
deriving DecidableEq

/-- `Board` from src/board/src/lib.rs. `pos_to_chain : Vec<Option<usize>>`
and `chains : Vec<Option<Chain>>` become lists of options. -/
structure Board where
  size : ℕ
  komi : ℚ
  turn : Turn
  pos_to_chain : List (Option ℕ)
  chains : List (Option Chain)
  history : List MoveChange
deriving DecidableEq

/-- Errors returned by the engine. The Rust code returns `Err(String)`; the
messages are abstracted to constructors: "Game is over (..)" ↦ `gameOver`,
"Tile is occupied (..)" ↦ `tileOccupied`, "Repetition" ↦ `repetition`,
"No move to undo" ↦ `noHistory`. `panicked` models a Rust panic
(out-of-bounds index or `unwrap` failure), which is not an error return in
Rust at all. -/
inductive BoardErr
  | gameOver
  | tileOccupied
  | repetition
  | noHistory
  | panicked
deriving DecidableEq, Repr

/-- `Board::new`. Note: `pos_to_chain` is all `None` and `chains` is empty. -/
def Board.new (size : ℕ) (starting_turn : Turn) (komi : ℚ) : Board :=
  { size := size
    komi := komi
    turn := starting_turn
    pos_to_chain := List.replicate (size ^ 2) Option.none
    chains := []
    history := [] }

/-- `Board::to_coords`. -/
def Board.to_coords (b : Board) (pos : ℕ) : ℕ × ℕ :=
  (pos / b.size, pos % b.size)

/-- `Board::to_pos`. -/
def Board.to_pos (b : Board) (x y : ℕ) : ℕ :=
  x * b.size + y

/-- `Board::neighbors`: the orthogonal neighbours inside the grid, in the
source's push order (up, down, left, right). -/
def Board.neighbors (b : Board) (pos : ℕ) : List ℕ :=
  let x := (b.to_coords pos).1
  let y := (b.to_coords pos).2
  (if 0 < x then [b.to_pos (x - 1) y] else []) ++
  (if x + 1 < b.size then [b.to_pos (x + 1) y] else []) ++
  (if 0 < y then [b.to_pos x (y - 1)] else []) ++
  (if y + 1 < b.size then [b.to_pos x (y + 1)] else [])

/-- `Board::get_tile`. A position outside `pos_to_chain` would panic in Rust
(index out of bounds), as would a dangling chain id; both are modelled as
`Tile.dead` (inert). -/
def Board.get_tile (b : Board) (pos : ℕ) : Tile :=
  match b.pos_to_chain.get? pos with
  | Option.none => Tile.dead
  | some Option.none => Tile.dead
  | some (some id) =>
    match b.chains.get? id with
    | some (some c) => c.tile
    | _ => Tile.dead

/-- `Board::compute_board_hash` / `impl Hash for Board`: the hash input is the
tile at every index of `pos_to_chain`; the model keeps the tile vector itself
(injective in the hashed data). -/
def Board.compute_board_hash (b : Board) : List Tile :=
  (List.range b.pos_to_chain.length).map b.get_tile

/-- `Board::get_rep`, as a character list. -/
def Board.get_rep (b : Board) : List Char :=
  (List.range (b.size ^ 2)).map (fun p => (b.get_tile p).to_char)

/-- Enumerate a finite set of naturals in ascending order. The source
iterates hash sets in an unspecified order; this is the model's canonical
order (defined by filtering a range so that it evaluates by structural
recursion). -/
def finsort (s : Finset ℕ) : List ℕ :=
  match s.max with
  | ⊥ => []
  | some m => (List.range (m + 1)).filter (fun x => decide (x ∈ s))

/-- One step of `Board::floodfill`'s BFS loop, with explicit fuel (the Rust
loop terminates because the queue only receives grid positions). State:
queue, positions, adjacent, liberties. -/
def flood_aux (tile : ℕ → Tile) (nbrs : ℕ → List ℕ) (c : Tile) :
    ℕ → List ℕ → Finset ℕ → Finset ℕ → Finset ℕ →
    Finset ℕ × Finset ℕ × Finset ℕ
  | 0, _, ps, ad, li => (ps, ad, li)
  | _ + 1, [], ps, ad, li => (ps, ad, li)
  | fuel + 1, cur :: queue, ps, ad, li =>
    if cur ∈ ps then
      flood_aux tile nbrs c fuel queue ps ad li
    else
      let ns := nbrs cur
      flood_aux tile nbrs c fuel
        (queue ++ ns.filter (fun n => tile n = c))
        (insert cur ps)
        (ad ∪ (ns.filter (fun n => ¬ tile n = c)).toFinset)
        (li ∪ (ns.filter (fun n => ¬ tile n = c ∧ tile n = Tile.free)).toFinset)

/-- `Board::floodfill`. `fuel` bounds the BFS iteration count; callers pass a
bound that is ample for the grid reachable from `pos`. -/
def floodfill (tile : ℕ → Tile) (nbrs : ℕ → List ℕ) (pos id fuel : ℕ) : Chain :=
  let c := tile pos
  let r := flood_aux tile nbrs c fuel [pos] ∅ ∅ ∅
  { id := id, tile := c, positions := r.1, adjacent := r.2.1, liberties := r.2.2 }

/-- Ample BFS fuel for a flood on board `b` starting at `pos`: every queue
element is at most `max pos size²` and each position is popped at most five
times (once per incoming edge plus the seed). -/
def Board.flood_fuel (b : Board) (pos : ℕ) : ℕ :=
  5 * (b.size ^ 2 + pos + 1)

/-- The step of `Board::from_rep`'s chain-building loop for one index `p`
(state: board so far and the `seen` set). -/
def from_rep_step (rep_tiles : List Tile) (bs : Board × Finset ℕ) (p : ℕ) :
    Board × Finset ℕ :=
  let board := bs.1
  let seen := bs.2
  if p ∈ seen then bs
  else if (rep_tiles.get? p).getD Tile.dead = Tile.dead then bs
  else
    let id := board.chains.length
    -- the Rust closure `|p| rep_tiles[p]` panics out of bounds; the flood only
    -- queries grid indices, where `getD` never takes its default
    let new_chain := floodfill (fun q => (rep_tiles.get? q).getD Tile.dead)
      board.neighbors p id (board.flood_fuel p)
    ({ board with
        pos_to_chain := (finsort new_chain.positions).foldl
          (fun v q => v.set q (some id)) board.pos_to_chain
        chains := board.chains ++ [some new_chain] },
     seen ∪ new_chain.positions)

/-- `Board::from_rep`. -/
def Board.from_rep (rep : List Char) (size : ℕ) (starting_turn : Turn)
    (komi : ℚ) : Except String Board :=
  if ¬ rep.length = size ^ 2 then Except.error "Invalid shape"
  else
    match rep.mapM Tile.from_char with
    | Option.none => Except.error "Invalid char"
    | some rep_tiles =>
      Except.ok ((List.range (size ^ 2)).foldl (from_rep_step rep_tiles)
        (Board.new size starting_turn komi, ∅)).1

/-- Replace `chains[id]` (a no-op when `id` is out of range, where Rust would
panic on direct indexing; all writes in the engine are in range). -/
def set_chain (b : Board) (id : ℕ) (c : Option Chain) : Board :=
  { b with chains := b.chains.set id c }

/-- Replace `pos_to_chain[p]`. -/
def set_ptc (b : Board) (p : ℕ) (v : Option ℕ) : Board :=
  { b with pos_to_chain := b.pos_to_chain.set p v }

/-- Append a chain to the arena (`self.chains.push(Some(c))`). -/
def push_chain (b : Board) (c : Chain) : Board :=
  { b with chains := b.chains ++ [some c] }

/-- One step of `Board::rollback_change`'s reversed-mods loop. -/
def undo_mod (b : Board) (m : Mod) : Board :=
  match m with
  | Mod.addition a => { b with chains := b.chains.take a }
  | Mod.assignment p o => set_ptc b p (some o)
  | Mod.change a c => set_chain b a (some c)

/-- Apply a list of mods in order (callers pass the reversed journal, as the
source's `change.mods.into_iter().rev()` does). -/
def undo_mods (ms : List Mod) (b : Board) : Board :=
  ms.foldl undo_mod b

/-- `Board::rollback_change`. -/
def rollback_change (b : Board) (change : MoveChange) : Board :=
  undo_mods change.mods.reverse { b with turn := change.previous_turn }

/-- Fold a journaling step over a list, accumulating the emitted mods. -/
def jfold {α : Type} (f : Board → α → Board × List Mod) :
    List α → Board → Board × List Mod
  | [], b => (b, [])
  | a :: t, b =>
    let r1 := f b a
    let r2 := jfold f t r1.1
    (r2.1, r1.2 ++ r2.2)

/-- The inner loop body of the capture branch of `Board::apply_move`
(lines 357–387): restore liberties of chains adjacent to a captured chain.
`cid` is the captured chain's id. A `None` mapping (or, in Rust, an
out-of-bounds index / failing `unwrap`) skips the position. -/
def capture_adj_step (pos cid : ℕ) (b : Board) (adj : ℕ) : Board × List Mod :=
  match b.pos_to_chain.get? adj with
  | some (some id) =>
    if adj = pos then (b, [])
    else
      let fns := (b.neighbors adj).filter (fun p => b.get_tile p = Tile.free)
      match b.chains.get? id with
      | some (some c) =>
        if id = cid then (b, [])
        else (set_chain b id (some { c with liberties := c.liberties ∪ fns.toFinset }),
          [Mod.change id c])
      | _ => (b, [])
  | _ => (b, [])

/-- The per-neighbour body of the opponent loop of `Board::apply_move`
(lines 343–388): remove `pos` from an opponent chain's liberties and, when
they run out, capture it (turn it Free and refresh the liberties of adjacent
chains). The snapshot mod is recorded before the modification. -/
def capture_step (pos : ℕ) (oc : Tile) (b : Board) (n : ℕ) : Board × List Mod :=
  match b.pos_to_chain.get? n with
  | some (some cid) =>
    match b.chains.get? cid with
    | some (some c) =>
      if ¬ c.tile = oc then (b, [])
      else
        let c1 : Chain := { c with liberties := c.liberties.erase pos }
        if 0 < c1.liberties.card then (set_chain b cid (some c1), [Mod.change cid c])
        else
          let c2 : Chain := { c1 with tile := Tile.free }
          let r := jfold (capture_adj_step pos cid) (finsort c.adjacent)
            (set_chain b cid (some c2))
          (r.1, Mod.change cid c :: r.2)
    | _ => (b, [])
  | _ => (b, [])

/-- The opponent-capture loop of `Board::apply_move` over the non-Dead
neighbours of `pos`. -/
def capture_phase (pos : ℕ) (oc : Tile) (nbrs : List ℕ) (b : Board) :
    Board × List Mod :=
  jfold (capture_step pos oc) nbrs b

/-- The friendly neighbour chain ids (lines 390–396), a `HashSet` in the
source, iterated here in ascending order. -/
def friendly_sorted (b : Board) (nbrs : List ℕ) (fc : Tile) : List ℕ :=
  ((nbrs.filterMap (fun n => (b.pos_to_chain.get? n).join)).filter
    (fun id =>
      match b.chains.get? id with
      | some (some c) => decide (c.tile = fc)
      | _ => false)).toFinset |> finsort

/-- Accumulator for the many-chain merge branch. -/
structure MergeAcc where
  board : Board
  positions : Finset ℕ
  adjacents : Finset ℕ
  liberties : Finset ℕ
  mods : List Mod

/-- The loop over `many[1..]` (lines 446–454): collect the merged chains'
sets, tombstone their slots, snapshotting each first. -/
def merge_collect : List ℕ → Board → MergeAcc
  | [], b => { board := b, positions := ∅, adjacents := ∅, liberties := ∅, mods := [] }
  | other :: rest, b =>
    match b.chains.get? other with
    | some (some c) =>
      let acc := merge_collect rest (set_chain b other Option.none)
      { acc with
          positions := c.positions ∪ acc.positions
          adjacents := c.adjacent ∪ acc.adjacents
          liberties := c.liberties ∪ acc.liberties
          mods := Mod.change other c :: acc.mods }
    | _ => merge_collect rest b

/-- One absorbed position (lines 462–467 and 522–527): record the old chain
id and re-point the position at `new_id`. A `None` mapping (a Rust `unwrap`
panic) skips. -/
def absorb_step (new_id : ℕ) (b : Board) (p : ℕ) : Board × List Mod :=
  match b.pos_to_chain.get? p with
  | some (some old) => (set_ptc b p (some new_id), [Mod.assignment p old])
  | _ => (b, [])

/-- The three-way friendly-chain branch of `Board::apply_move`
(lines 411–478): no friendly neighbour chain / exactly one / merge many.
`nbrs` are the non-Dead neighbours, `fns` the Free neighbours and `nfns` the
non-friendly neighbours at this point of the move. -/
def merge_phase (pos : ℕ) (fc : Tile) (nbrs fns nfns frs : List ℕ) (b : Board) :
    Board × List Mod :=
  match frs with
  | [] =>
    let new_id := b.chains.length
    let nc : Chain :=
      { id := new_id, tile := fc, positions := {pos},
        adjacent := nbrs.toFinset, liberties := fns.toFinset }
    (push_chain (set_ptc b pos (some new_id)) nc, [Mod.addition new_id])
  | [one] =>
    match b.chains.get? one with
    | some (some c) =>
      let c1 : Chain :=
        { c with
            positions := insert pos c.positions
            adjacent := (c.adjacent.erase pos) ∪ nfns.toFinset
            liberties := (c.liberties.erase pos) ∪ fns.toFinset }
      (set_ptc (set_chain b one (some c1)) pos (some c.id), [Mod.change one c])
    | _ => (b, [])
  | m0 :: rest =>
    let acc := merge_collect rest b
    let adjacents := acc.adjacents ∪ nfns.toFinset
    let liberties := acc.liberties ∪ fns.toFinset
    match acc.board.chains.get? m0 with
    | some (some surv) =>
      let r := jfold (absorb_step surv.id) (finsort acc.positions) acc.board
      let surv1 : Chain :=
        { surv with
            positions := insert pos (surv.positions ∪ acc.positions)
            adjacent := (surv.adjacent ∪ adjacents).erase pos
            liberties := (surv.liberties ∪ liberties).erase pos }
      (set_ptc (set_chain r.1 m0 (some surv1)) pos (some surv.id),
       acc.mods ++ [Mod.change m0 surv] ++ r.2)
    | _ => (acc.board, acc.mods)

/-- `usize::MAX`, the placeholder id handed to the re-flood (line 489). -/
def usize_max : ℕ := 2 ^ 64 - 1

/-- Subset test against the live chains (line 498–504). -/
def chain_subset_any (l : List (Option Chain)) (s : Finset ℕ) : Bool :=
  l.any fun oc =>
    match oc with
    | some c => decide (c.positions ⊆ s)
    | Option.none => false

/-- Emit one re-flooded Free chain (lines 519–530): re-point its positions
and append it with a fresh id. -/
def reflood_push_step (b : Board) (nc : Chain) : Board × List Mod :=
  let id := b.chains.length
  let r := jfold (absorb_step id) (finsort nc.positions) b
  (push_chain r.1 { nc with id := id }, r.2 ++ [Mod.addition id])

/-- The Free-chain re-derivation of `Board::apply_move` (lines 485–542),
split on the count of initially-Free neighbours: re-flood and filter on ≥ 2,
recompute in place on 1, tombstone on 0. -/
def free_reflood_phase (pos_id : ℕ) (nbrs ifns : List ℕ) (b : Board) :
    Board × List Mod :=
  if 2 ≤ ifns.length then
    let floods := nbrs.map (fun n =>
      floodfill b.get_tile b.neighbors n usize_max (b.flood_fuel n))
    let b1 := set_chain b pos_id Option.none
    let filtered := floods.foldl (fun acc nc =>
      if chain_subset_any b1.chains nc.positions then acc
      else if acc.any (fun c => decide (c.positions ⊆ nc.positions)) then acc
      else acc ++ [nc]) ([] : List Chain)
    jfold reflood_push_step filtered b1
  else
    match ifns with
    | [f] =>
      (set_chain b pos_id (some (floodfill b.get_tile b.neighbors f pos_id
        (b.flood_fuel f))), [])
    | _ => (set_chain b pos_id Option.none, [])

/-- The whole `Move::Place` body of `Board::apply_move` (lines 324–543),
returning the mutated board and the journal. The two `panicked` outcomes
correspond to Rust `unwrap` panics on inconsistent boards
(line 408 and line 480). -/
def phase_place (b : Board) (pos : ℕ) (fc oc : Tile) :
    Except BoardErr (Board × List Mod) :=
  if ¬ b.get_tile pos = Tile.free then Except.error BoardErr.tileOccupied
  else
    let nbrs := (b.neighbors pos).filter (fun p => ¬ b.get_tile p = Tile.dead)
    let ifns := nbrs.filter (fun p => b.get_tile p = Tile.free)
    let r1 := capture_phase pos oc nbrs b
    let b1 := r1.1
    let frs := friendly_sorted b1 nbrs fc
    let fns := nbrs.filter (fun p => b1.get_tile p = Tile.free)
    let nfns := nbrs.filter (fun p => ¬ b1.get_tile p = fc)
    match b1.pos_to_chain.get? pos with
    | some (some pos_id) =>
      let r2 := merge_phase pos fc nbrs fns nfns frs b1
      match r2.1.chains.get? pos_id with
      | some (some prev_c) =>
        let r3 := free_reflood_phase pos_id nbrs ifns r2.1
        Except.ok (r3.1,
          r1.2 ++ [Mod.assignment pos pos_id] ++ r2.2 ++ [Mod.change pos_id prev_c] ++ r3.2)
      | _ => Except.error BoardErr.panicked
    | _ => Except.error BoardErr.panicked

/-- The `Move::Coords` conversion (lines 320–322). -/
def convert_action (b : Board) : Move → Move
  | Move.coords xy => Move.place (b.to_pos xy.1 xy.2)
  | a => a

/-- The board mutation of `apply_move` for the (converted) action; a `Pass`
mutates nothing. -/
def phase_act (b : Board) (action : Move) (fc oc : Tile) :
    Except BoardErr (Board × List Mod) :=
  match action with
  | Move.place pos => phase_place b pos fc oc
  | Move.coords _ => Except.ok (b, [])
  | Move.pass => Except.ok (b, [])

/-- The turn advance of `apply_move` (lines 545–552): two consecutive passes
end the game. -/
def turn_update (b : Board) (action : Move) : Board :=
  if action = Move.pass ∧ (b.history.getLast?.map MoveChange.action) = some Move.pass
  then { b with turn := Turn.none }
  else { b with turn := b.turn.next }

/-- The positional-superko test of `apply_move` (lines 555–560): some
non-Pass history entry recorded the hash `h`. -/
def repetition_hit (history : List MoveChange) (h : List Tile) : Prop :=
  0 < history.length ∧ ∃ c ∈ history, ¬ c.action = Move.pass ∧ c.board_hash = h

instance (history : List MoveChange) (h : List Tile) :
    Decidable (repetition_hit history h) := by
  unfold repetition_hit; infer_instance

/-- `Board::apply_move`. The Rust method mutates `&mut self` and returns
`Result<(), String>`; the model returns the result together with the board
as left by the call. The `get_placing_color().unwrap()` calls (lines
335–336) cannot fail because `turn != None` was checked first; the dead
fallback arm returns `panicked`. -/
def apply_move (b : Board) (action0 : Move) : Except BoardErr Unit × Board :=
  if b.turn = Turn.none then (Except.error BoardErr.gameOver, b)
  else
    let pre_hash := b.compute_board_hash
    let action := convert_action b action0
    match b.turn.get_placing_color, b.turn.next.get_placing_color with
    | some fc, some oc =>
      match phase_act b action fc oc with
      | Except.error e => (Except.error e, b)
      | Except.ok r =>
        let b2 := turn_update r.1 action
        let change : MoveChange :=
          { action := action0, previous_turn := b.turn,
            board_hash := pre_hash, mods := r.2 }
        if repetition_hit b2.history b2.compute_board_hash then
          (Except.error BoardErr.repetition, rollback_change b2 change)
        else (Except.ok (), { b2 with history := b2.history ++ [change] })
    | _, _ => (Except.error BoardErr.panicked, b)

/-- `Board::undo_move`: pop the last change and roll it back. -/
def undo_move (b : Board) : Except BoardErr Unit × Board :=
  match b.history.getLast? with
  | some change =>
    (Except.ok (), rollback_change { b with history := b.history.dropLast } change)
  | Option.none => (Except.error BoardErr.noHistory, b)

/-- The single-point candidate test of `<Board as Heuristic>::moves`
(lines 644–656): some neighbour chain is friendly with ≥ 2 liberties, or
enemy with exactly one liberty which is this point. A dangling chain id
(a Rust `get_chain(..).unwrap()` panic) yields no candidate. -/
def can_place_single (b : Board) (fc : Tile) (p : ℕ) : Bool :=
  ((b.neighbors p).filter (fun n => ((b.pos_to_chain.get? n).join).isSome)).any
    fun n =>
      match (b.pos_to_chain.get? n).join with
      | some id =>
        match b.chains.get? id with
        | some (some nc) =>
          decide (nc.tile = fc ∧ 2 ≤ nc.liberties.card) ||
          decide (¬ nc.tile = fc ∧ nc.liberties.card = 1 ∧ p ∈ nc.liberties)
        | _ => false
      | Option.none => false

/-- The per-chain body of `<Board as Heuristic>::moves` (lines 634–660).
An empty Free chain (a Rust `nth(0).unwrap()` panic) contributes nothing. -/
def moves_chain_step (b : Board) (fc : Tile) (acc : List Move) (oc : Option Chain) :
    List Move :=
  match oc with
  | Option.none => acc
  | some chain =>
    if ¬ chain.tile = Tile.free then acc
    else if 2 ≤ chain.positions.card then
      acc ++ (finsort chain.positions).map Move.place
    else
      match finsort chain.positions with
      | [p] => if can_place_single b fc p then acc ++ [Move.place p] else acc
      | _ => acc

/-- `<Board as Heuristic>::moves` (src/board/src/lib.rs lines 629–663).
When `turn == None`, `get_placing_color().unwrap()` panics in Rust before
any move is produced; the model returns `none` for that case. -/
def Board.moves (b : Board) : Option (List Move) :=
  match b.turn.get_placing_color with
  | Option.none => Option.none
  | some fc => some (b.chains.foldl (moves_chain_step b fc) [Move.pass])

/-- The territory condition of `calculate_heuristic` for a Free chain: some
adjacent has tile `t` and every adjacent is Dead or `t`. This is the
`find_map` (first non-Dead, non-Free adjacent tile) followed by the `all`
check of lines 587–597; when the `all` check passes, the found tile is the
unique stone colour among the adjacents, so the unordered `find_map` is
equivalent to testing each colour. -/
def owns (b : Board) (c : Chain) (t : Tile) : Prop :=
  (∃ a ∈ c.adjacent, b.get_tile a = t) ∧
  ∀ a ∈ c.adjacent, b.get_tile a = Tile.dead ∨ b.get_tile a = t

instance (b : Board) (c : Chain) (t : Tile) : Decidable (owns b c t) := by
  unfold owns; infer_instance

/-- The per-chain accumulation of `<Board as Heuristic>::calculate_heuristic`
(lines 585–612). A Dead-tiled chain hits `panic!("not possible")` in Rust;
the model lets it contribute nothing. -/
def chain_score (b : Board) (score : ℚ) (oc : Option Chain) : ℚ :=
  match oc with
  | Option.none => score
  | some c =>
    if c.tile = Tile.free then
      if owns b c Tile.black then score + c.positions.card
      else if owns b c Tile.white then score - c.positions.card
      else score
    else
      match c.tile with
      | Tile.black => score + c.positions.card
      | Tile.white => score - c.positions.card
      | _ => score

/-- `<Board as Heuristic>::calculate_heuristic` (lines 582–615). -/
def calculate_heuristic (b : Board) : ℚ :=
  b.chains.foldl (chain_score b) (-b.komi)

/-- A journaling step is invertible when replaying its reversed mods on its
output restores its input. -/
def StepInv {α : Type} (f : Board → α → Board × List Mod) : Prop :=
  ∀ b a, undo_mods (f b a).2.reverse (f b a).1 = b

/-- Mods that only touch the chain arena. -/
def chains_mod (m : Mod) : Prop :=
  match m with
  | Mod.assignment _ _ => False
  | _ => True

/-- Mods that only touch `pos_to_chain`. -/
def ptc_mod (m : Mod) : Prop :=
  match m with
  | Mod.assignment _ _ => True
  | _ => False

/-! ### Frame preservation: the mutation phases leave `size`, `komi`, `turn`,
`history` and the length of `pos_to_chain` unchanged. -/

def frame_ok (b b' : Board) : Prop :=
  b'.size = b.size ∧ b'.komi = b.komi ∧ b'.turn = b.turn ∧ b'.history = b.history ∧
  b'.pos_to_chain.length = b.pos_to_chain.length

/-- `Board::get_chain` (lines 294–299): the chain at a position; `None` for
an unmapped position (and, modelling the `unwrap` panic, a dangling id). -/
def get_chain (b : Board) (pos : ℕ) : Option (ℕ × Chain) :=
  match b.pos_to_chain.get? pos with
  | some (some id) =>
    match b.chains.get? id with
    | some (some c) => some (id, c)
    | _ => Option.none
  | _ => Option.none

/-- `Bound` from src/evaluation/src/lib.rs and alphabeta.rs. -/
inductive Bound
  | exact
  | lowerBound
  | upperBound
deriving DecidableEq, Repr

/-- `TranspositionEntry`. Scores (`f32`) are modelled as `ℚ`. -/
structure TranspositionEntry where
  depth : ℕ
  value : ℚ
  bound : Bound
deriving DecidableEq, Repr

/-- Outcome of the transposition-probe step at the head of `alpha_beta`:
either return a value immediately or continue searching with an updated
window. -/
inductive ProbeOutcome
  | immediate (v : ℚ)
  | window (alpha beta : ℚ)
deriving DecidableEq, Repr

/-- The transposition-probe step of `Evaluator::alpha_beta`
(src/evaluation/src/lib.rs lines 143–153; identically
src/evaluation/src/alphabeta.rs lines 101–115): `Exact` returns the stored
value; `LowerBound` raises α to `max α value`; `UpperBound` sets
`beta = beta.max(entry.value)` — the source's exact expression; then return
the stored value if α ≥ β. -/
def tt_probe (entry : TranspositionEntry) (alpha beta : ℚ) : ProbeOutcome :=
  match entry.bound with
  | Bound.exact => ProbeOutcome.immediate entry.value
  | Bound.lowerBound =>
    let alpha1 := max alpha entry.value
    if beta ≤ alpha1 then ProbeOutcome.immediate entry.value
    else ProbeOutcome.window alpha1 beta
  | Bound.upperBound =>
    let beta1 := max beta entry.value
    if beta1 ≤ alpha then ProbeOutcome.immediate entry.value
    else ProbeOutcome.window alpha beta1

/-- Modelled from the spec: the same probe step with the stored bound used
"to tighten α or β" — an `UpperBound` entry may only tighten β downward,
`beta = beta.min(entry.value)`. -/
def tt_probe_spec (entry : TranspositionEntry) (alpha beta : ℚ) : ProbeOutcome :=
  match entry.bound with
  | Bound.exact => ProbeOutcome.immediate entry.value
  | Bound.lowerBound =>
    let alpha1 := max alpha entry.value
    if beta ≤ alpha1 then ProbeOutcome.immediate entry.value
    else ProbeOutcome.window alpha1 beta
  | Bound.upperBound =>
    let beta1 := min beta entry.value
    if beta1 ≤ alpha then ProbeOutcome.immediate entry.value
    else ProbeOutcome.window alpha beta1

/-- `TranspositionTable` (lib.rs lines 37–84, alphabeta.rs lines 23–66):
the `HashMap` becomes an association list with replace-on-insert, the
`VecDeque` a list whose head is the front. -/
structure TranspositionTable where
  capacity : ℕ
  entries : List (ℕ × TranspositionEntry)
  inserted : List ℕ
deriving DecidableEq

/-- `TranspositionTable::new`. -/
def TranspositionTable.new (capacity : ℕ) : TranspositionTable :=
  { capacity := capacity, entries := [], inserted := [] }

/-- `HashMap::insert`: replace the entry of an existing key, else append. -/
def entries_insert : List (ℕ × TranspositionEntry) → ℕ → TranspositionEntry →
    List (ℕ × TranspositionEntry)
  | [], k, e => [(k, e)]
  | p :: t, k, e => if p.1 = k then (k, e) :: t else p :: entries_insert t k e

/-- `HashMap::remove`. -/
def entries_remove (l : List (ℕ × TranspositionEntry)) (k : ℕ) :
    List (ℕ × TranspositionEntry) :=
  l.filter (fun p => ¬ p.1 = k)

/-- `HashMap::get`. -/
def entries_get (l : List (ℕ × TranspositionEntry)) (k : ℕ) :
    Option TranspositionEntry :=
  (l.find? (fun p => p.1 == k)).map Prod.snd

/-- `TranspositionTable::get` (lib.rs lines 57–69 / alphabeta.rs 39–51): a
probe whose key equals the front of the insertion queue (compared against
the sentinel `u64::MAX` when the queue is empty) rotates that key to the
back; the stored entry is returned when its depth ≥ the requested depth. -/
def tt_get (t : TranspositionTable) (key depth : ℕ) :
    Option TranspositionEntry × TranspositionTable :=
  let t1 := if t.inserted.head?.getD usize_max = key
    then { t with inserted := t.inserted.tail ++ [key] }
    else t
  ((entries_get t1.entries key).bind
    (fun e => if depth ≤ e.depth then some e else Option.none), t1)

/-- `TranspositionTable::insert` (lib.rs lines 71–79 / alphabeta.rs 53–61):
when at (or beyond) capacity, pop the front of the queue — `unwrap`, which
panics (modelled `none`) when the queue is empty — and remove its entry,
then insert and push the key. -/
def tt_insert (t : TranspositionTable) (key : ℕ) (e : TranspositionEntry) :
    Option TranspositionTable :=
  if t.capacity ≤ t.entries.length then
    match t.inserted with
    | [] => Option.none
    | f :: rest =>
      some { t with entries := entries_insert (entries_remove t.entries f) key e,
                    inserted := rest ++ [key] }
  else
    some { t with entries := entries_insert t.entries key e,
                  inserted := t.inserted ++ [key] }

/-- An operation sequence against the table. -/
inductive TTOp
  | get (key depth : ℕ)
  | insert (key : ℕ) (e : TranspositionEntry)
deriving DecidableEq

/-- Run a sequence of operations (`none` models a panic). -/
def tt_run : TranspositionTable → List TTOp → Option TranspositionTable
  | t, [] => some t
  | t, TTOp.get k d :: rest => tt_run (tt_get t k d).2 rest
  | t, TTOp.insert k e :: rest => (tt_insert t k e).bind (fun t2 => tt_run t2 rest)

/-- The keys inserted by a sequence of operations. -/
def insert_keys (l : List TTOp) : List ℕ :=
  l.filterMap (fun o =>
    match o with
    | TTOp.insert k _ => some k
    | TTOp.get _ _ => Option.none)

/-- Table well-formedness: the queue holds exactly the stored keys, without
duplicates, within capacity. -/
def tt_wf (t : TranspositionTable) : Prop :=
  t.inserted.Nodup ∧ (t.entries.map Prod.fst).Perm t.inserted ∧
  t.entries.length ≤ t.capacity

/-- A throwaway entry for counterexample runs. -/
def tt_e0 : TranspositionEntry := { depth := 0, value := 0, bound := Bound.exact }

/-! ### Concrete test positions -/

/-- A 2×2 board `.OO.` (Free, White, White, Free), Black to move, komi 0. -/
def board22 : Board :=
  (Board.from_rep ['.', 'O', 'O', '.'] 2 Turn.black 0).toOption.getD
    (Board.new 2 Turn.black 0)

/-- A 4×4 ko position, Black to move, komi ½:
row0 `.XO.`, row1 `XO.O`, row2 `.XO.`, row3 `....`. The White stone at
index 5 is in atari; Black captures it by playing at 6, and White's
immediate recapture at 5 would repeat the position. -/
def boardko : Board :=
  (Board.from_rep ['.', 'X', 'O', '.', 'X', 'O', '.', 'O', '.', 'X', 'O', '.',
    '.', '.', '.', '.'] 4 Turn.black (1 / 2)).toOption.getD
    (Board.new 2 Turn.black 0)

/-- The ko position after Black's capture at 6. -/
def boardko1 : Board := (apply_move boardko (Move.place 6)).2

/-- Chain-arena coherence: every stored chain's `id` field equals its slot
index. `from_rep`, `Board::new` and `apply_move` all maintain this. -/
def chains_coherent (l : List (Option Chain)) : Prop :=
  ∀ id c, l.get? id = some (some c) → c.id = id

/-- The non-Pass recorded hashes of a history (the positional-superko
reference set of `apply_move` lines 555–560). -/
def nonpass_hashes (h : List MoveChange) : List (List Tile) :=
  (h.filter (fun c => decide ¬ c.action = Move.pass)).map MoveChange.board_hash

/-- Board states reachable by the program: a parsed starting position, a
fresh board, or a successful `apply_move` from a reachable state. -/
inductive Reachable : Board → Prop
  | of_rep (rep : List Char) (size : ℕ) (t : Turn) (komi : ℚ) (b : Board)
      (h : Board.from_rep rep size t komi = Except.ok b) : Reachable b
  | of_new (size : ℕ) (t : Turn) (komi : ℚ) : Reachable (Board.new size t komi)
  | step (b : Board) (m : Move) (b2 : Board) (hb : Reachable b)
      (h : apply_move b m = (Except.ok (), b2)) : Reachable b2

/-- The slot `pos_id` holds a live Free chain. -/
def free_at (pos_id : ℕ) (b : Board) : Prop :=
  ∃ c, b.chains.get? pos_id = some (some c) ∧ c.tile = Tile.free

/-- The C3 state invariant: coherent chain arena, pairwise-distinct recorded
non-Pass hashes, and a current hash distinct from all of them. -/
def superko_ok (b : Board) : Prop :=
  chains_coherent b.chains ∧
  (nonpass_hashes b.history).Pairwise (fun x y => ¬ x = y) ∧
  ¬ b.compute_board_hash ∈ nonpass_hashes b.history

/-! ### C9: the scoring formula -/

/-- Per-chain contribution of `calculate_heuristic` relative to the running
score (the loop body is affine in `score`). -/
def chain_contrib (b : Board) (oc : Option Chain) : ℚ :=
  match oc with
  | Option.none => 0
  | some c =>
    if c.tile = Tile.free then
      if owns b c Tile.black then (c.positions.card : ℚ)
      else if owns b c Tile.white then -(c.positions.card : ℚ)
      else 0
    else
      match c.tile with
      | Tile.black => (c.positions.card : ℚ)
      | Tile.white => -(c.positions.card : ℚ)
      | _ => 0

/-- SPEC-SIDE: the stone term of the claim, per chain: `+|positions|` for a
Black chain, `-|positions|` for a White chain. -/
def stone_contrib : Option Chain → ℚ
  | Option.none => 0
  | some c =>
    if c.tile = Tile.black then (c.positions.card : ℚ)
    else if c.tile = Tile.white then -(c.positions.card : ℚ)
    else 0

/-- SPEC-SIDE: the claim's territory condition, in its own words: the chain
has at least one adjacent stone, and every non-Dead adjacent tile is `t`. -/
def spec_owns (b : Board) (c : Chain) (t : Tile) : Prop :=
  (∃ a ∈ c.adjacent, ¬ b.get_tile a = Tile.dead ∧ ¬ b.get_tile a = Tile.free) ∧
  ∀ a ∈ c.adjacent, ¬ b.get_tile a = Tile.dead → b.get_tile a = t

instance (b : Board) (c : Chain) (t : Tile) : Decidable (spec_owns b c t) := by
  unfold spec_owns
  infer_instance

/-- SPEC-SIDE: the claim's territory term: `+|positions|` for a Free chain
all of whose non-Dead adjacent tiles are Black, `-|positions|` for White;
mixed or stone-less Free chains (and stone chains) contribute 0. -/
def free_territory (b : Board) (oc : Option Chain) : ℚ :=
  match oc with
  | Option.none => 0
  | some c =>
    if c.tile = Tile.free then
      if spec_owns b c Tile.black then (c.positions.card : ℚ)
      else if spec_owns b c Tile.white then -(c.positions.card : ℚ)
      else 0
    else 0

/-- SPEC-SIDE: the number of board positions carrying tile `t`. -/
def count_tile (b : Board) (t : Tile) : ℕ :=
  ((Finset.range (b.size ^ 2)).filter (fun p => b.get_tile p = t)).card

/-- Whether slot `id` holds a chain of tile `t`. -/
def slot_tile (b : Board) (t : Tile) (id : ℕ) : Bool :=
  match b.chains.get? id with
  | some (some c) => decide (c.tile = t)
  | _ => false

/-- The positions of the chain in slot `id` (empty for a free slot). -/
def slot_positions (b : Board) (id : ℕ) : Finset ℕ :=
  match b.chains.get? id with
  | some (some c) => c.positions
  | _ => ∅

/-- Chain invariant, backward direction: every position of the chain stored
in a slot maps back to that slot. -/
def slot_ok (b : Board) (id : ℕ) : Prop :=
  match b.chains.get? id with
  | some (some c) => ∀ p ∈ c.positions, b.pos_to_chain.get? p = some (some id)
  | _ => True

/-- Chain invariant, forward direction: a mapped position belongs to a live
chain that contains it. -/
def point_ok (b : Board) (p : ℕ) : Prop :=
  match b.pos_to_chain.get? p with
  | some (some id) =>
    match b.chains.get? id with
    | some (some c) => p ∈ c.positions
    | _ => False
  | _ => True

instance (b : Board) (id : ℕ) : Decidable (slot_ok b id) := by
  unfold slot_ok
  split <;> infer_instance

instance (b : Board) (p : ℕ) : Decidable (point_ok b p) := by
  unfold point_ok
  split
  · split <;> infer_instance
  · infer_instance

/-- The chain invariants assumed by the scoring claim: `pos_to_chain` and the
chain arena describe each other. -/
def chain_inv (b : Board) : Prop :=
  (∀ id ∈ List.range b.chains.length, slot_ok b id) ∧
  (∀ p ∈ List.range b.pos_to_chain.length, point_ok b p)

instance (b : Board) : Decidable (chain_inv b) := by
  unfold chain_inv
  infer_instance

/-- A 2×2 board `X...` (one Black stone), Black to move, komi ½. -/
def boardsc : Board :=
  (Board.from_rep ['X', '.', '.', '.'] 2 Turn.black (1 / 2)).toOption.getD
    (Board.new 2 Turn.black 0)

theorem mem_finsort (s : Finset ℕ) (x : ℕ) : x ∈ finsort s ↔ x ∈ s := by
  unfold finsort
  split
  case h_1 hmax =>
    simp only [List.not_mem_nil, false_iff]
    intro hx
    exact absurd (Finset.le_max hx) (by simp [hmax])
  case h_2 m hmax =>
    simp only [List.mem_filter, List.mem_range, decide_eq_true_eq]
    constructor
    · exact fun h => h.2
    · intro hx
      refine ⟨?_, hx⟩
      exact Nat.lt_succ_of_le (Finset.le_max_of_eq hx hmax)

/-! ### The journal is a correct undo log

`rollback_change` replays the recorded mods in reverse; the lemmas below
show that this restores the exact pre-move board for every journal the
mutation phases can emit. -/

theorem set_self_of_get? {α : Type} : ∀ {l : List α} {i : ℕ} {v : α},
    l.get? i = some v → l.set i v = l
  | [], i, v, h => by simp at h
  | a :: t, 0, v, h => by simp at h; simp [h]
  | a :: t, i + 1, v, h => by
    simp only [List.get?_cons_succ] at h
    simp [List.set_cons_succ, set_self_of_get? h]

theorem set_chain_twice (b : Board) (id : ℕ) (x y : Option Chain) :
    set_chain (set_chain b id x) id y = set_chain b id y := by
  simp [set_chain, List.set_set]

theorem set_chain_cancel {b : Board} {id : ℕ} {c : Option Chain}
    (h : b.chains.get? id = some c) : set_chain b id c = b := by
  cases b
  simp only [set_chain] at *
  simp [set_self_of_get? h]

theorem set_ptc_twice (b : Board) (p : ℕ) (x y : Option ℕ) :
    set_ptc (set_ptc b p x) p y = set_ptc b p y := by
  simp [set_ptc, List.set_set]

theorem set_ptc_cancel {b : Board} {p : ℕ} {v : Option ℕ}
    (h : b.pos_to_chain.get? p = some v) : set_ptc b p v = b := by
  cases b
  simp only [set_ptc] at *
  simp [set_self_of_get? h]

theorem undo_mods_nil (b : Board) : undo_mods [] b = b := rfl

theorem undo_mods_append (ms ns : List Mod) (b : Board) :
    undo_mods (ms ++ ns) b = undo_mods ns (undo_mods ms b) := by
  simp [undo_mods, List.foldl_append]

theorem undo_mods_cons (m : Mod) (ms : List Mod) (b : Board) :
    undo_mods (m :: ms) b = undo_mods ms (undo_mod b m) := rfl

theorem jfold_undo {α : Type} {f : Board → α → Board × List Mod}
    (hf : StepInv f) :
    ∀ (l : List α) (b : Board),
      undo_mods (jfold f l b).2.reverse (jfold f l b).1 = b
  | [], b => rfl
  | a :: t, b => by
    have h1 := hf b a
    have h2 := jfold_undo hf t (f b a).1
    simp only [jfold, List.reverse_append, undo_mods_append]
    rw [h2, h1]

theorem capture_adj_step_inv (pos cid : ℕ) : StepInv (capture_adj_step pos cid) := by
  intro b adj
  unfold capture_adj_step
  split
  case h_1 id heq =>
    split
    · rfl
    · split
      case h_1 c heq2 =>
        split
        · rfl
        · simp only [List.reverse_cons, List.reverse_nil, List.nil_append]
          show undo_mod _ (Mod.change id c) = b
          show set_chain _ id (some c) = b
          rw [set_chain_twice, set_chain_cancel heq2]
      case h_2 => rfl
  case h_2 => rfl

theorem capture_step_inv (pos : ℕ) (oc : Tile) : StepInv (capture_step pos oc) := by
  intro b n
  unfold capture_step
  split
  case h_1 cid heq =>
    split
    case h_1 c heq2 =>
      split
      · rfl
      · dsimp only
        split
        · simp only [List.reverse_cons, List.reverse_nil, List.nil_append]
          show set_chain _ cid (some c) = b
          rw [set_chain_twice, set_chain_cancel heq2]
        · simp only [List.reverse_cons, undo_mods_append]
          rw [jfold_undo (capture_adj_step_inv pos cid)]
          show set_chain _ cid (some c) = b
          rw [set_chain_twice, set_chain_cancel heq2]
    case h_2 => rfl
  case h_2 => rfl

theorem absorb_step_inv (new_id : ℕ) : StepInv (absorb_step new_id) := by
  intro b p
  unfold absorb_step
  split
  case h_1 old heq =>
    simp only [List.reverse_cons, List.reverse_nil, List.nil_append]
    show set_ptc _ p (some old) = b
    rw [set_ptc_twice, set_ptc_cancel heq]
  case h_2 => rfl

theorem merge_collect_undo : ∀ (l : List ℕ) (b : Board),
    undo_mods (merge_collect l b).mods.reverse (merge_collect l b).board = b
  | [], b => rfl
  | other :: rest, b => by
    unfold merge_collect
    split
    case h_1 c heq =>
      have ih := merge_collect_undo rest (set_chain b other Option.none)
      simp only [List.reverse_cons, undo_mods_append]
      rw [ih]
      show set_chain _ other (some c) = b
      rw [set_chain_twice, set_chain_cancel heq]
    case h_2 => exact merge_collect_undo rest b

theorem absorb_step_chains (id : ℕ) (b : Board) (p : ℕ) :
    ((absorb_step id b p).1).chains = b.chains := by
  unfold absorb_step
  split <;> rfl

theorem jfold_absorb_chains (id : ℕ) : ∀ (l : List ℕ) (b : Board),
    (jfold (absorb_step id) l b).1.chains = b.chains
  | [], _ => rfl
  | p :: t, b => by
    simp only [jfold]
    rw [jfold_absorb_chains id t, absorb_step_chains]

theorem undo_addition_push (b : Board) (c : Chain) :
    undo_mod (push_chain b c) (Mod.addition b.chains.length) = b := by
  cases b
  simp only [push_chain, undo_mod]
  congr 1
  exact List.take_left _ _

theorem reflood_push_step_inv : StepInv reflood_push_step := by
  intro b nc
  unfold reflood_push_step
  simp only [List.reverse_append, List.reverse_cons, List.reverse_nil, List.nil_append,
    undo_mods_append, undo_mods_cons, undo_mods_nil]
  have hchains := jfold_absorb_chains b.chains.length (finsort nc.positions) b
  have hstep := undo_addition_push
    (jfold (absorb_step b.chains.length) (finsort nc.positions) b).1
    { nc with id := b.chains.length }
  rw [hchains] at hstep
  rw [hstep, jfold_undo (absorb_step_inv _)]

theorem set_ptc_set_chain_comm (b : Board) (q : ℕ) (v : Option ℕ) (i : ℕ)
    (x : Option Chain) : set_ptc (set_chain b i x) q v = set_chain (set_ptc b q v) i x := rfl

theorem undo_mod_chains_set_ptc (m : Mod) (h : chains_mod m) (b : Board) (q : ℕ)
    (v : Option ℕ) : undo_mod (set_ptc b q v) m = set_ptc (undo_mod b m) q v := by
  cases m with
  | assignment p o => exact absurd h (by simp [chains_mod])
  | addition a => rfl
  | change a c => rfl

theorem undo_mod_ptc_set_chain (m : Mod) (h : ptc_mod m) (b : Board) (i : ℕ)
    (x : Option Chain) : undo_mod (set_chain b i x) m = set_chain (undo_mod b m) i x := by
  cases m with
  | assignment p o => rfl
  | addition a => exact absurd h (by simp [ptc_mod])
  | change a c => exact absurd h (by simp [ptc_mod])

theorem undo_mods_chains_set_ptc : ∀ (ms : List Mod), (∀ m ∈ ms, chains_mod m) →
    ∀ (b : Board) (q : ℕ) (v : Option ℕ),
    undo_mods ms (set_ptc b q v) = set_ptc (undo_mods ms b) q v
  | [], _, _, _, _ => rfl
  | m :: t, h, b, q, v => by
    simp only [undo_mods_cons]
    rw [undo_mod_chains_set_ptc m (h m (by simp)) b q v]
    exact undo_mods_chains_set_ptc t (fun x hx => h x (by simp [hx])) _ q v

theorem undo_mods_ptc_set_chain : ∀ (ms : List Mod), (∀ m ∈ ms, ptc_mod m) →
    ∀ (b : Board) (i : ℕ) (x : Option Chain),
    undo_mods ms (set_chain b i x) = set_chain (undo_mods ms b) i x
  | [], _, _, _, _ => rfl
  | m :: t, h, b, i, x => by
    simp only [undo_mods_cons]
    rw [undo_mod_ptc_set_chain m (h m (by simp)) b i x]
    exact undo_mods_ptc_set_chain t (fun y hy => h y (by simp [hy])) _ i x

theorem undo_mod_change (x : Board) (a : ℕ) (c : Chain) :
    undo_mod x (Mod.change a c) = set_chain x a (some c) := rfl

theorem undo_mod_assignment (x : Board) (p o : ℕ) :
    undo_mod x (Mod.assignment p o) = set_ptc x p (some o) := rfl

theorem set_ptc_comm (b : Board) (p q : ℕ) (hpq : p ≠ q) (v w : Option ℕ) :
    set_ptc (set_ptc b p v) q w = set_ptc (set_ptc b q w) p v := by
  cases b
  simp only [set_ptc]
  congr 1
  exact List.set_comm _ _ _ hpq

/-- Replaying any mods over a `pos_to_chain` write either commutes with the
write or absorbs it (when some replayed assignment targets the same
position). -/
theorem undo_mods_set_ptc_cases : ∀ (ms : List Mod) (b : Board) (p : ℕ) (v : Option ℕ),
    undo_mods ms (set_ptc b p v) = set_ptc (undo_mods ms b) p v ∨
    undo_mods ms (set_ptc b p v) = undo_mods ms b
  | [], _, _, _ => Or.inl rfl
  | m :: t, b, p, v => by
    simp only [undo_mods_cons]
    cases m with
    | assignment q o =>
      rw [undo_mod_assignment, undo_mod_assignment]
      by_cases hq : q = p
      · subst hq
        right
        rw [set_ptc_twice]
      · rw [set_ptc_comm b p q (fun h => hq h.symm) v (some o)]
        exact undo_mods_set_ptc_cases t (set_ptc b q (some o)) p v
    | addition a =>
      rw [undo_mod_chains_set_ptc _ (by simp [chains_mod]) b p v]
      exact undo_mods_set_ptc_cases t _ p v
    | change a c =>
      rw [undo_mod_chains_set_ptc _ (by simp [chains_mod]) b p v]
      exact undo_mods_set_ptc_cases t _ p v

theorem merge_collect_mods_chains : ∀ (l : List ℕ) (b : Board),
    ∀ m ∈ (merge_collect l b).mods, chains_mod m
  | [], _, m, hm => by simp [merge_collect] at hm
  | other :: rest, b, m, hm => by
    unfold merge_collect at hm
    revert hm
    split
    case h_1 c heq =>
      intro hm
      rcases List.mem_cons.mp hm with h | h
      · subst h; trivial
      · exact merge_collect_mods_chains rest _ m h
    case h_2 =>
      intro hm
      exact merge_collect_mods_chains rest b m hm

theorem absorb_step_mods_ptc (id : ℕ) (b : Board) (p : ℕ) :
    ∀ m ∈ (absorb_step id b p).2, ptc_mod m := by
  intro m hm
  unfold absorb_step at hm
  revert hm
  split
  · intro hm
    rcases List.mem_singleton.mp hm with h
    subst h; trivial
  · intro hm; simp at hm

theorem jfold_mods_forall {α : Type} {P : Mod → Prop}
    {f : Board → α → Board × List Mod}
    (hf : ∀ b a, ∀ m ∈ (f b a).2, P m) :
    ∀ (l : List α) (b : Board), ∀ m ∈ (jfold f l b).2, P m
  | [], _, m, hm => by simp [jfold] at hm
  | a :: t, b, m, hm => by
    simp only [jfold] at hm
    rcases List.mem_append.mp hm with h | h
    · exact hf b a m h
    · exact jfold_mods_forall hf t _ m h

/-- Generic undo of the many-chain merge block: assignments over the two
final writes, then the survivor snapshot, then the tombstone snapshots. -/
theorem undo_chain_many (b A R : Board) (surv1 : Option Chain) (surv : Chain)
    (m0 pos : ℕ) (wv : Option ℕ) (accmods rmods : List Mod)
    (hacc : ∀ m ∈ accmods.reverse, chains_mod m)
    (hrm : ∀ m ∈ rmods.reverse, ptc_mod m)
    (hundoR : undo_mods rmods.reverse R = A)
    (hundoA : undo_mods accmods.reverse A = b)
    (heq : A.chains.get? m0 = some (some surv))
    (hpos : b.pos_to_chain.get? pos = some wv) :
    ∃ v, undo_mods ((accmods ++ [Mod.change m0 surv] ++ rmods).reverse)
      (set_ptc (set_chain R m0 surv1) pos (some surv.id)) = set_ptc b pos v := by
  simp only [List.reverse_append, List.reverse_cons, List.reverse_nil, List.nil_append,
    undo_mods_append, undo_mods_cons, undo_mods_nil]
  rcases undo_mods_set_ptc_cases rmods.reverse (set_chain R m0 surv1) pos (some surv.id)
    with hcase | hcase
  · rw [hcase, undo_mods_ptc_set_chain rmods.reverse hrm, hundoR, undo_mod_change,
      ← set_ptc_set_chain_comm, set_chain_twice, set_chain_cancel heq,
      undo_mods_chains_set_ptc accmods.reverse hacc, hundoA]
    exact ⟨some surv.id, rfl⟩
  · rw [hcase, undo_mods_ptc_set_chain rmods.reverse hrm, hundoR, undo_mod_change,
      set_chain_twice, set_chain_cancel heq, hundoA]
    exact ⟨wv, (set_ptc_cancel hpos).symm⟩

/-- Undoing the merge branch restores the input board up to a rewrite of
`pos_to_chain[pos]` (which the caller's `Assignment(pos, pos_id)` mod then
restores). -/
theorem merge_phase_undo (pos : ℕ) (fc : Tile) (nbrs fns nfns frs : List ℕ)
    (b : Board) (w : Option ℕ) (hpos : b.pos_to_chain.get? pos = some w) :
    ∃ v, undo_mods (merge_phase pos fc nbrs fns nfns frs b).2.reverse
      (merge_phase pos fc nbrs fns nfns frs b).1 = set_ptc b pos v := by
  unfold merge_phase
  match frs with
  | [] =>
    refine ⟨some b.chains.length, ?_⟩
    simp only [List.reverse_cons, List.reverse_nil, List.nil_append, undo_mods_cons,
      undo_mods_nil]
    exact undo_addition_push (set_ptc b pos (some b.chains.length)) _
  | [one] =>
    dsimp only
    split
    case h_1 c heq =>
      refine ⟨some c.id, ?_⟩
      simp only [List.reverse_cons, List.reverse_nil, List.nil_append, undo_mods_cons,
        undo_mods_nil]
      rw [undo_mod_change, ← set_ptc_set_chain_comm, set_chain_twice, set_chain_cancel heq]
    case h_2 =>
      refine ⟨w, ?_⟩
      show undo_mods [] b = set_ptc b pos w
      rw [undo_mods_nil, set_ptc_cancel hpos]
  | m0 :: m1 :: rest' =>
    dsimp only
    split
    case h_1 surv heq =>
      refine undo_chain_many b (merge_collect (m1 :: rest') b).board _ _ surv m0 pos w
        (merge_collect (m1 :: rest') b).mods _ ?_ ?_ ?_ ?_ heq hpos
      · intro m hm
        exact merge_collect_mods_chains (m1 :: rest') b m (List.mem_reverse.mp hm)
      · intro m hm
        exact jfold_mods_forall (absorb_step_mods_ptc surv.id) _ _ m (List.mem_reverse.mp hm)
      · exact jfold_undo (absorb_step_inv surv.id) _ _
      · exact merge_collect_undo (m1 :: rest') b
    case h_2 =>
      refine ⟨w, ?_⟩
      show undo_mods (merge_collect (m1 :: rest') b).mods.reverse
        (merge_collect (m1 :: rest') b).board = set_ptc b pos w
      rw [merge_collect_undo (m1 :: rest') b, set_ptc_cancel hpos]

/-- Undoing the Free-chain re-derivation restores the input board up to the
un-journalled write of `chains[pos_id]` (restored by the caller's
`Change(pos_id, …)` mod). -/
theorem free_reflood_undo (pos_id : ℕ) (nbrs ifns : List ℕ) (b : Board) :
    ∃ X, undo_mods (free_reflood_phase pos_id nbrs ifns b).2.reverse
      (free_reflood_phase pos_id nbrs ifns b).1 = set_chain b pos_id X := by
  unfold free_reflood_phase
  split
  · exact ⟨Option.none, jfold_undo reflood_push_step_inv _ _⟩
  · split
    · exact ⟨some (floodfill b.get_tile b.neighbors _ pos_id _), rfl⟩
    · exact ⟨Option.none, rfl⟩

theorem capture_phase_undo (pos : ℕ) (oc : Tile) (nbrs : List ℕ) (b : Board) :
    undo_mods (capture_phase pos oc nbrs b).2.reverse (capture_phase pos oc nbrs b).1 = b :=
  jfold_undo (capture_step_inv pos oc) nbrs b

/-- Composition of the journalled blocks of a placement. -/
theorem undo_place_block (b bc bm br : Board) (pos pos_id : ℕ) (prev_c : Chain)
    (ms1 ms2 ms3 : List Mod)
    (h1 : undo_mods ms1.reverse bc = b)
    (hpos : bc.pos_to_chain.get? pos = some (some pos_id))
    (h2 : ∃ v, undo_mods ms2.reverse bm = set_ptc bc pos v)
    (heq : bm.chains.get? pos_id = some (some prev_c))
    (h3 : ∃ X, undo_mods ms3.reverse br = set_chain bm pos_id X) :
    undo_mods ((ms1 ++ [Mod.assignment pos pos_id] ++ ms2 ++ [Mod.change pos_id prev_c]
      ++ ms3).reverse) br = b := by
  obtain ⟨v, hv⟩ := h2
  obtain ⟨X, hX⟩ := h3
  simp only [List.reverse_append, List.reverse_cons, List.reverse_nil, List.nil_append,
    undo_mods_append, undo_mods_cons, undo_mods_nil]
  rw [hX, undo_mod_change, set_chain_twice, set_chain_cancel heq, hv,
    undo_mod_assignment, set_ptc_twice, set_ptc_cancel hpos, h1]

/-- The central rollback theorem: replaying the reversed journal of a
successful placement restores the exact pre-move board. -/
theorem phase_place_undo (b : Board) (pos : ℕ) (fc oc : Tile) (b1 : Board)
    (ms : List Mod) (h : phase_place b pos fc oc = Except.ok (b1, ms)) :
    undo_mods ms.reverse b1 = b := by
  unfold phase_place at h
  split at h
  · exact absurd h (by simp)
  · dsimp only at h
    split at h
    case h_1 pos_id heq1 =>
      split at h
      case h_1 prev_c heq2 =>
        rw [Except.ok.injEq, Prod.mk.injEq] at h
        obtain ⟨hb1, hms⟩ := h
        subst hb1
        subst hms
        exact undo_place_block b _ _ _ pos pos_id prev_c _ _ _
          (capture_phase_undo pos oc _ b) heq1
          (merge_phase_undo pos fc _ _ _ _ _ (some pos_id) heq1) heq2
          (free_reflood_undo pos_id _ _ _)
      case h_2 => exact absurd h (by simp)
    case h_2 => exact absurd h (by simp)

theorem phase_act_undo (b : Board) (action : Move) (fc oc : Tile) (b1 : Board)
    (ms : List Mod) (h : phase_act b action fc oc = Except.ok (b1, ms)) :
    undo_mods ms.reverse b1 = b := by
  cases action with
  | place pos => exact phase_place_undo b pos fc oc b1 ms h
  | coords xy =>
    rw [phase_act, Except.ok.injEq, Prod.mk.injEq] at h
    obtain ⟨hb1, hms⟩ := h
    subst hb1; subst hms
    rfl
  | pass =>
    rw [phase_act, Except.ok.injEq, Prod.mk.injEq] at h
    obtain ⟨hb1, hms⟩ := h
    subst hb1; subst hms
    rfl

theorem frame_ok_refl (b : Board) : frame_ok b b := ⟨rfl, rfl, rfl, rfl, rfl⟩

theorem frame_ok_trans {a b c : Board} (h1 : frame_ok a b) (h2 : frame_ok b c) :
    frame_ok a c :=
  ⟨h2.1.trans h1.1, h2.2.1.trans h1.2.1, h2.2.2.1.trans h1.2.2.1,
    h2.2.2.2.1.trans h1.2.2.2.1, h2.2.2.2.2.trans h1.2.2.2.2⟩

theorem frame_set_chain (b : Board) (i : ℕ) (x : Option Chain) :
    frame_ok b (set_chain b i x) := ⟨rfl, rfl, rfl, rfl, rfl⟩

theorem frame_set_ptc (b : Board) (p : ℕ) (v : Option ℕ) :
    frame_ok b (set_ptc b p v) := ⟨rfl, rfl, rfl, rfl, List.length_set _ _ _⟩

theorem frame_push_chain (b : Board) (c : Chain) :
    frame_ok b (push_chain b c) := ⟨rfl, rfl, rfl, rfl, rfl⟩

theorem jfold_frame {α : Type} {f : Board → α → Board × List Mod}
    (hf : ∀ b a, frame_ok b (f b a).1) :
    ∀ (l : List α) (b : Board), frame_ok b (jfold f l b).1
  | [], b => frame_ok_refl b
  | a :: t, b => frame_ok_trans (hf b a) (jfold_frame hf t (f b a).1)

theorem jfold_pres {α : Type} {P : Board → Prop} {f : Board → α → Board × List Mod}
    (hf : ∀ b a, P b → P ((f b a).1)) :
    ∀ (l : List α) (b : Board), P b → P ((jfold f l b).1)
  | [], _, hb => hb
  | a :: t, b, hb => jfold_pres hf t _ (hf b a hb)

theorem frame_capture_adj_step (pos cid : ℕ) (b : Board) (adj : ℕ) :
    frame_ok b ((capture_adj_step pos cid b adj).1) := by
  unfold capture_adj_step
  split
  · split
    · exact frame_ok_refl b
    · split
      · split
        · exact frame_ok_refl b
        · exact frame_set_chain _ _ _
      · exact frame_ok_refl b
  · exact frame_ok_refl b

theorem frame_capture_step (pos : ℕ) (oc : Tile) (b : Board) (n : ℕ) :
    frame_ok b ((capture_step pos oc b n).1) := by
  unfold capture_step
  split
  · split
    · split
      · exact frame_ok_refl b
      · dsimp only
        split
        · exact frame_set_chain _ _ _
        · exact frame_ok_trans (frame_set_chain _ _ _)
            (jfold_frame (frame_capture_adj_step _ _) _ _)
    · exact frame_ok_refl b
  · exact frame_ok_refl b

theorem frame_merge_collect : ∀ (l : List ℕ) (b : Board),
    frame_ok b (merge_collect l b).board
  | [], b => frame_ok_refl b
  | other :: rest, b => by
    unfold merge_collect
    split
    · exact frame_ok_trans (frame_set_chain _ _ _) (frame_merge_collect rest _)
    · exact frame_merge_collect rest b

theorem frame_absorb_step (id : ℕ) (b : Board) (p : ℕ) :
    frame_ok b ((absorb_step id b p).1) := by
  unfold absorb_step
  split
  · exact frame_set_ptc _ _ _
  · exact frame_ok_refl b

theorem frame_merge_phase (pos : ℕ) (fc : Tile) (nbrs fns nfns frs : List ℕ)
    (b : Board) : frame_ok b (merge_phase pos fc nbrs fns nfns frs b).1 := by
  unfold merge_phase
  match frs with
  | [] =>
    exact frame_ok_trans (frame_set_ptc _ _ _) (frame_push_chain _ _)
  | [one] =>
    dsimp only
    split
    · exact frame_ok_trans (frame_set_chain _ _ _) (frame_set_ptc _ _ _)
    · exact frame_ok_refl b
  | m0 :: m1 :: rest' =>
    dsimp only
    split
    · exact frame_ok_trans (frame_merge_collect _ _)
        (frame_ok_trans (jfold_frame (frame_absorb_step _) _ _)
          (frame_ok_trans (frame_set_chain _ _ _) (frame_set_ptc _ _ _)))
    · exact frame_merge_collect _ b

theorem frame_reflood_push_step (b : Board) (nc : Chain) :
    frame_ok b ((reflood_push_step b nc).1) :=
  frame_ok_trans (jfold_frame (frame_absorb_step _) _ _) (frame_push_chain _ _)

theorem frame_free_reflood (pos_id : ℕ) (nbrs ifns : List ℕ) (b : Board) :
    frame_ok b (free_reflood_phase pos_id nbrs ifns b).1 := by
  unfold free_reflood_phase
  split
  · exact frame_ok_trans (frame_set_chain _ _ _)
      (jfold_frame (fun b nc => frame_reflood_push_step b nc) _ _)
  · split
    · exact frame_set_chain _ _ _
    · exact frame_set_chain _ _ _

theorem frame_phase_place (b : Board) (pos : ℕ) (fc oc : Tile) (b1 : Board)
    (ms : List Mod) (h : phase_place b pos fc oc = Except.ok (b1, ms)) :
    frame_ok b b1 := by
  unfold phase_place at h
  split at h
  · exact absurd h (by simp)
  · dsimp only at h
    split at h
    case h_1 pos_id heq1 =>
      split at h
      case h_1 prev_c heq2 =>
        rw [Except.ok.injEq, Prod.mk.injEq] at h
        obtain ⟨hb1, -⟩ := h
        subst hb1
        exact frame_ok_trans (jfold_frame (frame_capture_step _ _) _ _)
          (frame_ok_trans (frame_merge_phase _ _ _ _ _ _ _)
            (frame_free_reflood _ _ _ _))
      case h_2 => exact absurd h (by simp)
    case h_2 => exact absurd h (by simp)

theorem frame_phase_act (b : Board) (action : Move) (fc oc : Tile) (b1 : Board)
    (ms : List Mod) (h : phase_act b action fc oc = Except.ok (b1, ms)) :
    frame_ok b b1 := by
  cases action with
  | place pos => exact frame_phase_place b pos fc oc b1 ms h
  | coords xy =>
    rw [phase_act, Except.ok.injEq, Prod.mk.injEq] at h
    obtain ⟨hb1, -⟩ := h
    subst hb1
    exact frame_ok_refl b
  | pass =>
    rw [phase_act, Except.ok.injEq, Prod.mk.injEq] at h
    obtain ⟨hb1, -⟩ := h
    subst hb1
    exact frame_ok_refl b

theorem turn_update_set_turn (r : Board) (action : Move) (v : Turn) :
    ({ turn_update r action with turn := v } : Board) = { r with turn := v } := by
  unfold turn_update
  split <;> rfl

theorem turn_update_history (r : Board) (action : Move) :
    (turn_update r action).history = r.history := by
  unfold turn_update
  split <;> rfl

/-- Rolling back the recorded change of a successful mutation phase (after
the turn advance) restores the pre-move board exactly. -/
theorem rollback_of_phase (b : Board) (action : Move) (fc oc : Tile)
    (r : Board × List Mod) (h : phase_act b action fc oc = Except.ok r)
    (a0 : Move) (ph : List Tile) :
    rollback_change (turn_update r.1 action)
      { action := a0, previous_turn := b.turn, board_hash := ph, mods := r.2 } = b := by
  have hu := phase_act_undo b action fc oc r.1 r.2 (by rw [h])
  have hf := frame_phase_act b action fc oc r.1 r.2 (by rw [h])
  show undo_mods r.2.reverse { turn_update r.1 action with turn := b.turn } = b
  rw [turn_update_set_turn]
  have heta : ({ r.1 with turn := b.turn } : Board) = r.1 := by
    rw [← hf.2.2.1]
  rw [heta, hu]

/-- Whenever `apply_move` returns an error, the returned board is the
pre-call board (the `Repetition` path rolls its mutations back). -/
theorem apply_move_error_state (b : Board) (m : Move) (e : BoardErr) (bout : Board)
    (h : apply_move b m = (Except.error e, bout)) : bout = b := by
  unfold apply_move at h
  split at h
  · cases h; rfl
  · dsimp only at h
    split at h
    case h_1 fc oc hfc hoc =>
      split at h
      case h_1 e2 herr => cases h; rfl
      case h_2 r hok =>
        split at h
        · cases h
          exact rollback_of_phase b (convert_action b m) fc oc r hok m
            b.compute_board_hash
        · simp at h
    case h_2 => cases h; rfl

theorem undo_move_concat (b0 : Board) (ch : MoveChange) (hist : List MoveChange)
    (hh : b0.history = hist ++ [ch]) :
    undo_move b0 = (Except.ok (), rollback_change { b0 with history := hist } ch) := by
  unfold undo_move
  rw [hh, List.getLast?_concat, List.dropLast_concat]

/-- A successful `apply_move` followed by `undo_move` restores the exact
pre-move board. -/
theorem apply_move_then_undo (b : Board) (m : Move) (bout : Board)
    (h : apply_move b m = (Except.ok (), bout)) : undo_move bout = (Except.ok (), b) := by
  unfold apply_move at h
  split at h
  · simp at h
  · dsimp only at h
    split at h
    case h_1 fc oc hfc hoc =>
      split at h
      case h_1 e2 herr => simp at h
      case h_2 r hok =>
        split at h
        · simp at h
        · cases h
          rw [undo_move_concat _
            { action := m, previous_turn := b.turn,
              board_hash := b.compute_board_hash, mods := r.2 }
            (turn_update r.1 (convert_action b m)).history rfl]
          show (Except.ok (), rollback_change (turn_update r.1 (convert_action b m))
            { action := m, previous_turn := b.turn,
              board_hash := b.compute_board_hash, mods := r.2 }) = _
          rw [rollback_of_phase b (convert_action b m) fc oc r hok m
            b.compute_board_hash]
    case h_2 => simp at h

/-- C1: `apply_move` is transactional — whenever it returns one of the
`IllegalMove` errors (`GameOver`, `TileOccupied`, `Suicide`, `Repetition`;
the code can only produce the first, second and fourth, so the `Suicide`
case holds vacuously), the board's `pos_to_chain`, `chains`, `history` and
`turn` all equal their pre-call values. -/
theorem apply_move_transactional (b : Board) (m : Move) (e : BoardErr)
    (h : (apply_move b m).1 = Except.error e)
    (he : e = BoardErr.gameOver ∨ e = BoardErr.tileOccupied ∨ e = BoardErr.repetition) :
    (apply_move b m).2.pos_to_chain = b.pos_to_chain ∧
    (apply_move b m).2.chains = b.chains ∧
    (apply_move b m).2.history = b.history ∧
    (apply_move b m).2.turn = b.turn := by
  have hp : apply_move b m = (Except.error e, (apply_move b m).2) := by rw [← h]
  have hstate := apply_move_error_state b m e _ hp
  rw [hstate]
  exact ⟨rfl, rfl, rfl, rfl⟩

/-- Witness for C1 at a concrete input: White's ko recapture at 5 is
rejected as `Repetition` and the board is unchanged. -/
theorem apply_move_transactional_witness :
    (apply_move boardko1 (Move.place 5)).1 = Except.error BoardErr.repetition ∧
    ((apply_move boardko1 (Move.place 5)).2.pos_to_chain = boardko1.pos_to_chain ∧
     (apply_move boardko1 (Move.place 5)).2.chains = boardko1.chains ∧
     (apply_move boardko1 (Move.place 5)).2.history = boardko1.history ∧
     (apply_move boardko1 (Move.place 5)).2.turn = boardko1.turn) :=
  ⟨rfl, apply_move_transactional boardko1 (Move.place 5) BoardErr.repetition rfl
    (Or.inr (Or.inr rfl))⟩

/-- C2: when `apply_move` succeeds, `undo_move` succeeds and yields a board
equal to the original: same representation, same hash, same history length,
same turn (the proof restores the exact board). -/
theorem undo_left_inverse_of_apply (b : Board) (m : Move)
    (h : (apply_move b m).1 = Except.ok ()) :
    (undo_move (apply_move b m).2).1 = Except.ok () ∧
    (undo_move (apply_move b m).2).2.get_rep = b.get_rep ∧
    (undo_move (apply_move b m).2).2.compute_board_hash = b.compute_board_hash ∧
    (undo_move (apply_move b m).2).2.history.length = b.history.length ∧
    (undo_move (apply_move b m).2).2.turn = b.turn := by
  have hp : apply_move b m = (Except.ok (), (apply_move b m).2) := by rw [← h]
  have hu := apply_move_then_undo b m _ hp
  rw [hu]
  exact ⟨rfl, rfl, rfl, rfl, rfl⟩

/-- C4: counter to the claim, `apply_move` accepts a suicide. On `board22`
(`.OO.`, Black to move) the placement at 0 captures nothing and leaves the
new Black chain with zero liberties, yet `apply_move` returns `Ok` and the
stone stays on the board (the chain-based rewrite dropped the
`"You cannot suicide"` check that the earlier bitset board
`src/src/board/board.rs` line 236 performs after resolving captures). -/
theorem suicide_accepted :
    (apply_move board22 (Move.place 0)).1 = Except.ok () ∧
    (apply_move board22 (Move.place 0)).2.get_tile 0 = Tile.black ∧
    (apply_move board22 (Move.place 0)).2.get_tile 1 = Tile.white ∧
    (apply_move board22 (Move.place 0)).2.get_tile 2 = Tile.white ∧
    (get_chain (apply_move board22 (Move.place 0)).2 0).map
      (fun pc => (pc.2.tile, pc.2.liberties)) = some (Tile.black, ∅) := by
  refine ⟨rfl, rfl, rfl, rfl, ?_⟩
  decide

/-- C5: at a concrete transposition hit the code loosens β upward. With a
stored `UpperBound` entry of value 5 and window (α, β) = (0, 3), the probe
step of `alpha_beta` computes `beta.max(5) = 5` and searches the window
(0, 5), where the specified tightening `beta.min(5)` keeps (0, 3); the
widened window defeats every upper-bound cutoff, so the cache is not a pure
accelerator. -/
theorem tt_probe_upper_bound_loosens :
    tt_probe { depth := 3, value := 5, bound := Bound.upperBound } 0 3 =
      ProbeOutcome.window 0 5 ∧
    tt_probe_spec { depth := 3, value := 5, bound := Bound.upperBound } 0 3 =
      ProbeOutcome.window 0 3 ∧
    ¬ (5 : ℚ) ≤ 3 := by
  refine ⟨rfl, rfl, by norm_num⟩

/-- C6 counterexample: `Board::new` leaves `pos_to_chain` all `None` and
`chains` empty, so every tile reads `Dead` and the representation is
`####`, not `....`. -/
theorem board_new_tiles_dead_counterexample :
    ¬ (Board.new 2 Turn.black 0).get_tile 0 = Tile.free ∧
    (Board.new 2 Turn.black 0).get_tile 0 = Tile.dead ∧
    (Board.new 2 Turn.black 0).get_rep = ['#', '#', '#', '#'] ∧
    ¬ (Board.new 2 Turn.black 0).get_rep = ['.', '.', '.', '.'] := by
  decide

/-- C6 amended: `Board::new(size, turn, komi)` yields a board with empty
history on which every position's tile is `Dead` (the representation is
size² `'#'` characters); an all-Free board is produced by `from_rep` on
size² `'.'` characters instead. -/
theorem board_new_all_dead (size : ℕ) (t : Turn) (komi : ℚ) :
    (Board.new size t komi).get_rep = List.replicate (size ^ 2) '#' ∧
    (Board.new size t komi).history = [] := by
  refine ⟨?_, rfl⟩
  unfold Board.get_rep
  have htile : ∀ p, (Board.new size t komi).get_tile p = Tile.dead := by
    intro p
    unfold Board.get_tile Board.new
    rcases h : (List.replicate (size ^ 2) (Option.none : Option ℕ)).get? p with - | v
    · simp [h]
    · have hv : v = Option.none := by
        have := List.getElem?_replicate (a := (Option.none : Option ℕ))
          (n := size ^ 2) (m := p)
        rw [List.get?_eq_getElem?, this] at h
        by_cases hp : p < size ^ 2
        · rw [if_pos hp] at h
          exact (Option.some_injective _ h).symm
        · rw [if_neg hp] at h
          exact absurd h (by simp)
      subst hv
      simp [h]
  refine List.eq_replicate_iff.mpr ⟨by simp [Board.new], ?_⟩
  intro c hc
  simp only [List.mem_map] at hc
  obtain ⟨p, -, hp⟩ := hc
  rw [← hp, htile p]
  rfl

/-- C7: counter to the claim, the chain-based move filter excludes a
placement that `apply_move` accepts. On `board22` the single-point Free
chains at 0 and 3 fail the filter (no friendly neighbour with ≥ 2
liberties, no capturable enemy), so `moves()` is just `[Pass]`, yet
`apply_move(Place(0))` succeeds — because `apply_move` accepts suicides. -/
theorem moves_filter_excludes_accepted_move :
    board22.moves = some [Move.pass] ∧
    ¬ Move.place 0 ∈ (board22.moves).getD [] ∧
    (apply_move board22 (Move.place 0)).1 = Except.ok () := by
  refine ⟨by decide, by decide, rfl⟩

/-- C8 counterexample: with capacity 2, inserting key 0 twice leaves the
insertion queue holding 0 twice; two later evictions both pop key 0, the
second removing nothing, after which the table holds 3 > 2 entries. So a
table of capacity N can hold more than N entries. -/
theorem tt_capacity_exceeded_counterexample :
    (tt_run (TranspositionTable.new 2) [TTOp.insert 0 tt_e0, TTOp.insert 0 tt_e0,
      TTOp.insert 1 tt_e0, TTOp.insert 2 tt_e0, TTOp.insert 3 tt_e0]).map
      (fun t => t.entries.length) = some 3 ∧
    ¬ (3 : ℕ) ≤ 2 ∧
    ((tt_run (TranspositionTable.new 2) [TTOp.insert 10 tt_e0, TTOp.insert 11 tt_e0,
        TTOp.get 10 0, TTOp.insert 12 tt_e0]).map
        (fun t => (entries_get t.entries 11).isSome) = some false ∧
     (tt_run (TranspositionTable.new 2) [TTOp.insert 10 tt_e0, TTOp.insert 11 tt_e0,
        TTOp.insert 12 tt_e0]).map
        (fun t => (entries_get t.entries 10).isSome) = some false) := by
  refine ⟨by decide, by decide, by decide, by decide⟩

theorem moves_step_ext (b : Board) (fc : Tile) (acc : List Move) (oc : Option Chain) :
    ∃ t, moves_chain_step b fc acc oc = acc ++ t := by
  unfold moves_chain_step
  match oc with
  | Option.none => exact ⟨[], by simp⟩
  | some chain =>
    dsimp only
    split
    · exact ⟨[], by simp⟩
    · split
      · exact ⟨_, rfl⟩
      · split
        · split
          · exact ⟨_, rfl⟩
          · exact ⟨[], by simp⟩
        · exact ⟨[], by simp⟩

theorem moves_foldl_ext (b : Board) (fc : Tile) :
    ∀ (l : List (Option Chain)) (acc : List Move),
      ∃ t, l.foldl (moves_chain_step b fc) acc = acc ++ t
  | [], acc => ⟨[], by simp⟩
  | oc :: rest, acc => by
    obtain ⟨t1, h1⟩ := moves_step_ext b fc acc oc
    obtain ⟨t2, h2⟩ := moves_foldl_ext b fc rest (moves_chain_step b fc acc oc)
    exact ⟨t1 ++ t2, by rw [List.foldl_cons, h2, h1, List.append_assoc]⟩

theorem keys_entries_insert_fresh : ∀ (l : List (ℕ × TranspositionEntry)) (k : ℕ)
    (e : TranspositionEntry), ¬ k ∈ l.map Prod.fst →
    (entries_insert l k e).map Prod.fst = l.map Prod.fst ++ [k]
  | [], _, _, _ => rfl
  | p :: t, k, e, h => by
    simp only [List.map_cons, List.mem_cons] at h
    push_neg at h
    unfold entries_insert
    rw [if_neg (fun hh => h.1 hh.symm)]
    simp only [List.map_cons, List.cons_append, List.cons.injEq, true_and]
    exact keys_entries_insert_fresh t k e h.2

theorem keys_entries_remove : ∀ (l : List (ℕ × TranspositionEntry)) (f : ℕ),
    (entries_remove l f).map Prod.fst =
      (l.map Prod.fst).filter (fun x => decide ¬ x = f)
  | [], _ => rfl
  | p :: t, f => by
    have ih := keys_entries_remove t f
    unfold entries_remove at ih ⊢
    simp only [decide_not] at ih ⊢
    by_cases hp : p.1 = f <;> simp [List.filter_cons, hp, ih]

theorem mem_keys_entries_insert : ∀ (l : List (ℕ × TranspositionEntry)) (k : ℕ)
    (e : TranspositionEntry) (x : ℕ), ¬ x = k →
    (x ∈ (entries_insert l k e).map Prod.fst ↔ x ∈ l.map Prod.fst)
  | [], k, e, x, hx => by simp [entries_insert, hx]
  | p :: t, k, e, x, hx => by
    unfold entries_insert
    by_cases hp : p.1 = k
    · rw [if_pos hp]
      simp [hp, hx]
    · rw [if_neg hp]
      simp only [List.map_cons, List.mem_cons]
      rw [mem_keys_entries_insert t k e x hx]

theorem entries_get_eq_none (l : List (ℕ × TranspositionEntry)) (f : ℕ)
    (h : ¬ f ∈ l.map Prod.fst) : entries_get l f = Option.none := by
  unfold entries_get
  rw [List.find?_eq_none.mpr]
  · rfl
  · intro x hx
    simp only [beq_iff_eq]
    intro hxf
    exact h (List.mem_map.mpr ⟨x, hx, hxf⟩)

/-- Fresh insertion below the `tt_wf` invariant. -/
theorem tt_insert_wf (t : TranspositionTable) (k : ℕ) (e : TranspositionEntry)
    (hwf : tt_wf t) (hcap : 1 ≤ t.capacity) (hk : ¬ k ∈ t.inserted) :
    ∃ t2, tt_insert t k e = some t2 ∧ tt_wf t2 ∧ t2.capacity = t.capacity ∧
      (∀ x ∈ t2.inserted, x ∈ t.inserted ∨ x = k) := by
  obtain ⟨hnodup, hperm, hlen⟩ := hwf
  have hknotkeys : ¬ k ∈ t.entries.map Prod.fst := fun hmem =>
    hk (hperm.mem_iff.mp hmem)
  unfold tt_insert
  by_cases hful : t.capacity ≤ t.entries.length
  · have hlencap : t.entries.length = t.capacity := Nat.le_antisymm hlen hful
    have hinsne : t.inserted ≠ [] := by
      intro hnil
      have hl := hperm.length_eq
      rw [hnil] at hl
      simp only [List.length_map, List.length_nil] at hl
      omega
    rw [if_pos hful]
    match hins : t.inserted with
    | [] => exact absurd hins hinsne
    | f :: rest =>
      rw [hins] at hperm hnodup hk
      have hfrest : ¬ f ∈ rest := (List.nodup_cons.mp hnodup).1
      have hrestnodup : List.Nodup rest := (List.nodup_cons.mp hnodup).2
      have hremkeys : ((entries_remove t.entries f).map Prod.fst).Perm rest := by
        rw [keys_entries_remove]
        have h1 := hperm.filter (fun x => decide ¬ x = f)
        have h2 : (f :: rest).filter (fun x => decide ¬ x = f) = rest := by
          have hall : ∀ a ∈ rest, (decide ¬ a = f) = true := by
            intro a ha
            simp only [decide_eq_true_eq]
            intro haf
            subst haf
            exact hfrest ha
          have hstep : (f :: rest).filter (fun x => decide ¬ x = f) =
              rest.filter (fun x => decide ¬ x = f) := by
            simp [List.filter_cons]
          rw [hstep, List.filter_eq_self.mpr hall]
        rw [h2] at h1
        exact h1
      have hknotrem : ¬ k ∈ (entries_remove t.entries f).map Prod.fst := by
        intro hmem
        exact hk (List.mem_cons.mpr (Or.inr (hremkeys.mem_iff.mp hmem)))
      refine ⟨_, rfl, ⟨?_, ?_, ?_⟩, rfl, ?_⟩
      · show (rest ++ [k]).Nodup
        exact (List.perm_append_singleton k rest).symm.nodup
          (List.nodup_cons.mpr ⟨fun hkr => hk (List.mem_cons.mpr (Or.inr hkr)),
            hrestnodup⟩)
      · show ((entries_insert (entries_remove t.entries f) k e).map Prod.fst).Perm
          (rest ++ [k])
        rw [keys_entries_insert_fresh _ k e hknotrem]
        exact hremkeys.append_right [k]
      · show (entries_insert (entries_remove t.entries f) k e).length ≤ t.capacity
        have h5 := congrArg List.length (keys_entries_insert_fresh _ k e hknotrem)
        have h6 := hremkeys.length_eq
        have h7 := hperm.length_eq
        simp only [List.length_map, List.length_append, List.length_cons,
          List.length_nil] at h5 h6 h7
        omega
      · intro x hx
        rcases List.mem_append.mp hx with hx | hx
        · exact Or.inl (hins ▸ List.mem_cons.mpr (Or.inr hx))
        · exact Or.inr (List.mem_singleton.mp hx)
  · rw [if_neg hful]
    refine ⟨_, rfl, ⟨?_, ?_, ?_⟩, rfl, ?_⟩
    · show (t.inserted ++ [k]).Nodup
      exact (List.perm_append_singleton k t.inserted).symm.nodup
        (List.nodup_cons.mpr ⟨hk, hnodup⟩)
    · show ((entries_insert t.entries k e).map Prod.fst).Perm (t.inserted ++ [k])
      rw [keys_entries_insert_fresh _ k e hknotkeys]
      exact hperm.append_right [k]
    · show (entries_insert t.entries k e).length ≤ t.capacity
      have h5 := congrArg List.length (keys_entries_insert_fresh _ k e hknotkeys)
      simp only [List.length_map, List.length_append, List.length_cons,
        List.length_nil] at h5
      omega
    · intro x hx
      rcases List.mem_append.mp hx with hx | hx
      · exact Or.inl hx
      · exact Or.inr (List.mem_singleton.mp hx)

/-- A probe preserves the invariant, the entries, the capacity, and the set
of queued keys (when it does not probe the sentinel). -/
theorem tt_get_wf (t : TranspositionTable) (k d : ℕ) (hwf : tt_wf t)
    (hk : ¬ k = usize_max) :
    tt_wf (tt_get t k d).2 ∧ (tt_get t k d).2.entries = t.entries ∧
    (tt_get t k d).2.capacity = t.capacity ∧
    (∀ x, x ∈ (tt_get t k d).2.inserted ↔ x ∈ t.inserted) := by
  obtain ⟨hnodup, hperm, hlen⟩ := hwf
  by_cases hrot : t.inserted.head?.getD usize_max = k
  · match hins : t.inserted with
    | [] =>
      rw [hins] at hrot
      exact absurd (show k = usize_max from hrot.symm) hk
    | f :: tl =>
      rw [hins] at hrot
      simp only [List.head?_cons, Option.getD_some] at hrot
      subst hrot
      have hsnd : (tt_get t f d).2 = { t with inserted := tl ++ [f] } := by
        unfold tt_get
        dsimp only
        rw [if_pos (by rw [hins]; rfl), hins]
        rfl
      rw [hins] at hnodup hperm
      rw [hsnd]
      refine ⟨⟨?_, ?_, hlen⟩, rfl, rfl, ?_⟩
      · exact (List.perm_append_singleton f tl).symm.nodup hnodup
      · exact hperm.trans (List.perm_append_singleton f tl).symm
      · intro x
        show x ∈ tl ++ [f] ↔ x ∈ f :: tl
        simp [List.mem_append, List.mem_cons, or_comm]
  · have hsnd : (tt_get t k d).2 = t := by
      unfold tt_get
      rw [if_neg hrot]
    rw [hsnd]
    exact ⟨⟨hnodup, hperm, hlen⟩, rfl, rfl, fun _ => Iff.rfl⟩

/-- The run of an operation sequence with fresh insert keys and no sentinel
probes stays within capacity. -/
theorem tt_run_bound : ∀ (ops : List TTOp) (t : TranspositionTable),
    tt_wf t → 1 ≤ t.capacity →
    (insert_keys ops).Nodup →
    (∀ k ∈ insert_keys ops, ¬ k ∈ t.inserted) →
    (∀ op ∈ ops, ∀ k d, op = TTOp.get k d → ¬ k = usize_max) →
    ∃ t2, tt_run t ops = some t2 ∧ t2.entries.length ≤ t.capacity ∧
      t2.capacity = t.capacity
  | [], t, hwf, _, _, _, _ => ⟨t, rfl, hwf.2.2, rfl⟩
  | TTOp.get k d :: rest, t, hwf, hcap, hnodup, hfresh, hsent => by
    have hk : ¬ k = usize_max :=
      hsent _ (List.mem_cons_self _ _) k d rfl
    obtain ⟨hwf2, hentries, hcap2, hmem⟩ := tt_get_wf t k d hwf hk
    obtain ⟨t2, hrun, hbound, hcap3⟩ := tt_run_bound rest (tt_get t k d).2 hwf2
      (hcap2 ▸ hcap) hnodup
      (fun k2 hk2 hk2mem => hfresh k2 hk2 ((hmem k2).mp hk2mem))
      (fun op hop => hsent op (List.mem_cons.mpr (Or.inr hop)))
    exact ⟨t2, hrun, hcap2 ▸ hbound, hcap3.trans hcap2⟩
  | TTOp.insert k e :: rest, t, hwf, hcap, hnodup, hfresh, hsent => by
    have hkeys : insert_keys (TTOp.insert k e :: rest) = k :: insert_keys rest := rfl
    rw [hkeys] at hnodup hfresh
    have hkfresh : ¬ k ∈ t.inserted := hfresh k (List.mem_cons_self _ _)
    obtain ⟨t1, hins, hwf1, hcap1, hsub⟩ := tt_insert_wf t k e hwf hcap hkfresh
    obtain ⟨t2, hrun, hbound, hcap3⟩ := tt_run_bound rest t1 hwf1 (hcap1 ▸ hcap)
      (List.nodup_cons.mp hnodup).2
      (fun k2 hk2 hk2mem => by
        rcases hsub k2 hk2mem with h | h
        · exact hfresh k2 (List.mem_cons.mpr (Or.inr hk2)) h
        · exact (List.nodup_cons.mp hnodup).1 (h ▸ hk2))
      (fun op hop => hsent op (List.mem_cons.mpr (Or.inr hop)))
    refine ⟨t2, ?_, hcap1 ▸ hbound, hcap3.trans hcap1⟩
    show (tt_insert t k e).bind (fun t3 => tt_run t3 rest) = some t2
    rw [hins]
    exact hrun

/-- C8 amended: the claim holds only under restrictions the code's
promotion hack and duplicate-tolerant queue force. (1) For operation
sequences in which no key is inserted twice and no probe uses the sentinel
key `u64::MAX`, a table of capacity N ≥ 1 never holds more than N entries.
(2) An insert performed at capacity evicts the entry whose key is at the
front of the insertion queue, the earliest-queued surviving key. (3) A
probe leaves the queue unchanged unless its key is at the front, in which
case it rotates that key to the back — so probes can change which entry is
evicted next (FIFO with front-probe promotion, not plain FIFO). -/
theorem tt_fifo_capacity_amended :
    (∀ (ops : List TTOp) (N : ℕ), 1 ≤ N →
      (insert_keys ops).Nodup →
      (∀ op ∈ ops, ∀ k d, op = TTOp.get k d → ¬ k = usize_max) →
      ∃ t2, tt_run (TranspositionTable.new N) ops = some t2 ∧
        t2.entries.length ≤ N) ∧
    (∀ (t : TranspositionTable) (k : ℕ) (e : TranspositionEntry) (f : ℕ)
      (rest : List ℕ), t.inserted = f :: rest → t.capacity ≤ t.entries.length →
      ¬ k = f →
      ∃ t2, tt_insert t k e = some t2 ∧ entries_get t2.entries f = Option.none ∧
        t2.inserted = rest ++ [k]) ∧
    (∀ (t : TranspositionTable) (k d : ℕ), ¬ k = usize_max →
      (tt_get t k d).2.entries = t.entries ∧
      ((tt_get t k d).2.inserted = t.inserted ∨
       (t.inserted.head? = some k ∧
        (tt_get t k d).2.inserted = t.inserted.tail ++ [k]))) := by
  refine ⟨?_, ?_, ?_⟩
  · intro ops N hN hnodup hsent
    obtain ⟨t2, hrun, hbound, -⟩ := tt_run_bound ops (TranspositionTable.new N)
      ⟨List.nodup_nil, List.Perm.refl _, by simp [TranspositionTable.new]⟩
      hN hnodup (fun k _ hk => by simp [TranspositionTable.new] at hk) hsent
    exact ⟨t2, hrun, hbound⟩
  · intro t k e f rest hins hful hkf
    unfold tt_insert
    rw [if_pos hful, hins]
    refine ⟨_, rfl, ?_, rfl⟩
    apply entries_get_eq_none
    intro hmem
    rw [mem_keys_entries_insert _ k e f (fun h => hkf h.symm)] at hmem
    rw [keys_entries_remove] at hmem
    simp at hmem
  · intro t k d hk
    by_cases hrot : t.inserted.head?.getD usize_max = k
    · match hins : t.inserted with
      | [] =>
        rw [hins] at hrot
        exact absurd (show k = usize_max from hrot.symm) hk
      | f :: tl =>
        rw [hins] at hrot
        simp only [List.head?_cons, Option.getD_some] at hrot
        subst hrot
        have hsnd : (tt_get t f d).2 = { t with inserted := tl ++ [f] } := by
          unfold tt_get
          dsimp only
          rw [if_pos (by rw [hins]; rfl), hins]
          rfl
        rw [hsnd]
        exact ⟨rfl, Or.inr ⟨rfl, rfl⟩⟩
    · have hsnd : (tt_get t k d).2 = t := by
        unfold tt_get
        dsimp only
        rw [if_neg hrot]
      rw [hsnd]
      exact ⟨rfl, Or.inl rfl⟩

/-- Witness for C8's amended theorem: a concrete fresh-key run on a
capacity-2 table stays within bound, a concrete full table evicts its
front key, and a concrete probe away from the front changes nothing. -/
theorem tt_fifo_capacity_amended_witness :
    (∃ t2, tt_run (TranspositionTable.new 2)
        [TTOp.insert 10 tt_e0, TTOp.insert 11 tt_e0, TTOp.insert 12 tt_e0] =
        some t2 ∧ t2.entries.length ≤ 2) ∧
    (∃ t2, tt_insert { capacity := 1, entries := [(7, tt_e0)], inserted := [7] }
        8 tt_e0 = some t2 ∧ entries_get t2.entries 7 = Option.none ∧
        t2.inserted = [] ++ [8]) ∧
    ((tt_get { capacity := 1, entries := [(7, tt_e0)], inserted := [7] } 9 0).2.entries
        = [(7, tt_e0)]) :=
  ⟨tt_fifo_capacity_amended.1 [TTOp.insert 10 tt_e0, TTOp.insert 11 tt_e0,
      TTOp.insert 12 tt_e0] 2 (by decide) (by decide)
      (by intro op hop k d hop2; fin_cases hop <;> simp_all),
   tt_fifo_capacity_amended.2.1 _ 8 tt_e0 7 [] rfl (by decide) (by decide),
   (tt_fifo_capacity_amended.2.2 _ 9 0 (by decide)).1⟩

/-- C10: `moves()` begins with `Pass` exactly when the turn is Black or
White; on a board whose turn is `None` it hits
`get_placing_color().unwrap()` — a panic, modelled as `none` — and this
state is reachable at the public interface: two passes on `board22` end the
game and leave `moves()` panicking. -/
theorem moves_requires_active_turn :
    (∀ b : Board, ¬ b.turn = Turn.none → ∃ l, b.moves = some (Move.pass :: l)) ∧
    (∀ b : Board, b.turn = Turn.none → b.moves = Option.none) ∧
    ((apply_move (apply_move board22 Move.pass).2 Move.pass).1 = Except.ok () ∧
     (apply_move (apply_move board22 Move.pass).2 Move.pass).2.turn = Turn.none ∧
     (apply_move (apply_move board22 Move.pass).2 Move.pass).2.moves = Option.none) := by
  refine ⟨?_, ?_, rfl, rfl, rfl⟩
  · intro b hb
    unfold Board.moves
    cases hturn : b.turn with
    | none => exact absurd hturn hb
    | black =>
      obtain ⟨tail, htail⟩ := moves_foldl_ext b Tile.black b.chains [Move.pass]
      refine ⟨tail, ?_⟩
      show some (b.chains.foldl (moves_chain_step b Tile.black) [Move.pass]) =
        some (Move.pass :: tail)
      rw [htail]
      rfl
    | white =>
      obtain ⟨tail, htail⟩ := moves_foldl_ext b Tile.white b.chains [Move.pass]
      refine ⟨tail, ?_⟩
      show some (b.chains.foldl (moves_chain_step b Tile.white) [Move.pass]) =
        some (Move.pass :: tail)
      rw [htail]
      rfl
  · intro b hb
    unfold Board.moves
    rw [hb]
    rfl

/-- Witness for C10: `moves` on a fresh board whose turn is `None` is
undefined (panics), per the second conjunct at a concrete board. -/
theorem moves_requires_active_turn_witness :
    (Board.new 2 Turn.none 0).moves = Option.none :=
  moves_requires_active_turn.2.1 (Board.new 2 Turn.none 0) rfl

/-- Witness for C2 at a concrete input: Black plays at 0 on `board22`,
undo restores representation, hash, history length and turn. -/
theorem undo_left_inverse_of_apply_witness :
    (apply_move board22 (Move.place 0)).1 = Except.ok () ∧
    ((undo_move (apply_move board22 (Move.place 0)).2).1 = Except.ok () ∧
     (undo_move (apply_move board22 (Move.place 0)).2).2.get_rep = board22.get_rep ∧
     (undo_move (apply_move board22 (Move.place 0)).2).2.compute_board_hash =
       board22.compute_board_hash ∧
     (undo_move (apply_move board22 (Move.place 0)).2).2.history.length =
       board22.history.length ∧
     (undo_move (apply_move board22 (Move.place 0)).2).2.turn = board22.turn) :=
  ⟨rfl, undo_left_inverse_of_apply board22 (Move.place 0) rfl⟩

theorem chains_coherent_set_some {l : List (Option Chain)} {i : ℕ} {c : Chain}
    (h : chains_coherent l) (hc : c.id = i) : chains_coherent (l.set i (some c)) := by
  intro id c2 h2
  rw [List.get?_set] at h2
  by_cases hii : i = id
  · rw [if_pos hii] at h2
    rcases hv : l.get? id with - | v
    · rw [hv] at h2
      exact Option.noConfusion h2
    · rw [hv] at h2
      have h3 : (some (some c) : Option (Option Chain)) = some (some c2) := h2
      have h4 : c = c2 := by
        injection h3 with h5
        injection h5
      rw [← h4]
      exact hii ▸ hc
  · rw [if_neg hii] at h2
    exact h id c2 h2

theorem chains_coherent_set_none {l : List (Option Chain)} {i : ℕ}
    (h : chains_coherent l) : chains_coherent (l.set i Option.none) := by
  intro id c2 h2
  rw [List.get?_set] at h2
  by_cases hii : i = id
  · rw [if_pos hii] at h2
    rcases hv : l.get? id with - | v
    · rw [hv] at h2
      exact Option.noConfusion h2
    · rw [hv] at h2
      have h3 : (some Option.none : Option (Option Chain)) = some (some c2) := h2
      injection h3 with h5
      exact Option.noConfusion h5
  · rw [if_neg hii] at h2
    exact h id c2 h2

theorem chains_coherent_push {l : List (Option Chain)} {c : Chain}
    (h : chains_coherent l) (hc : c.id = l.length) :
    chains_coherent (l ++ [some c]) := by
  intro id c2 h2
  by_cases hid : id < l.length
  · rw [List.get?_append hid] at h2
    exact h id c2 h2
  · by_cases hid2 : id = l.length
    · subst hid2
      rw [List.get?_concat_length] at h2
      simp only [Option.some.injEq] at h2
      exact h2 ▸ hc
    · have hle : (l ++ [some c]).length ≤ id := by
        simp only [List.length_append, List.length_cons, List.length_nil]
        omega
      rw [List.get?_eq_none.mpr hle] at h2
      exact Option.noConfusion h2

theorem capture_adj_step_coherent (pos cid : ℕ) (b : Board) (adj : ℕ)
    (h : chains_coherent b.chains) :
    chains_coherent ((capture_adj_step pos cid b adj).1).chains := by
  unfold capture_adj_step
  split
  case h_1 id heq =>
    split
    · exact h
    · split
      case h_1 c heq2 =>
        split
        · exact h
        · exact chains_coherent_set_some h (h id c heq2)
      case h_2 => exact h
  case h_2 => exact h

theorem chains_coherent_congr {l1 l2 : List (Option Chain)} (h : l1 = l2)
    (hc : chains_coherent l1) : chains_coherent l2 := h ▸ hc

theorem turn_update_chains (r : Board) (action : Move) :
    (turn_update r action).chains = r.chains := by
  unfold turn_update
  split <;> rfl

theorem capture_step_coherent (pos : ℕ) (oc : Tile) (b : Board) (n : ℕ)
    (h : chains_coherent b.chains) :
    chains_coherent ((capture_step pos oc b n).1).chains := by
  unfold capture_step
  split
  case h_1 cid heq =>
    split
    case h_1 c heq2 =>
      split
      · exact h
      · dsimp only
        split
        · exact chains_coherent_set_some h (h cid c heq2)
        · exact jfold_pres (fun b2 a2 hh => capture_adj_step_coherent pos cid b2 a2 hh)
            (finsort c.adjacent) _ (chains_coherent_set_some h (h cid c heq2))
    case h_2 => exact h
  case h_2 => exact h

theorem merge_collect_coherent : ∀ (l : List ℕ) (b : Board),
    chains_coherent b.chains → chains_coherent (merge_collect l b).board.chains
  | [], _, h => h
  | other :: rest, b, h => by
    unfold merge_collect
    split
    · exact merge_collect_coherent rest _ (chains_coherent_set_none h)
    · exact merge_collect_coherent rest b h

theorem merge_phase_coherent (pos : ℕ) (fc : Tile) (nbrs fns nfns frs : List ℕ)
    (b : Board) (h : chains_coherent b.chains) :
    chains_coherent (merge_phase pos fc nbrs fns nfns frs b).1.chains := by
  unfold merge_phase
  match frs with
  | [] =>
    exact chains_coherent_push h rfl
  | [one] =>
    dsimp only
    split
    case h_1 c heq => exact chains_coherent_set_some h (h one c heq)
    case h_2 => exact h
  | m0 :: m1 :: rest' =>
    dsimp only
    split
    case h_1 surv heq =>
      have hacc := merge_collect_coherent (m1 :: rest') b h
      have h1 : chains_coherent (jfold (absorb_step surv.id)
          (finsort (merge_collect (m1 :: rest') b).positions)
          (merge_collect (m1 :: rest') b).board).1.chains := by
        rw [jfold_absorb_chains]
        exact hacc
      exact chains_coherent_set_some h1 (hacc m0 surv heq)
    case h_2 => exact merge_collect_coherent (m1 :: rest') b h

theorem reflood_push_step_coherent (b : Board) (nc : Chain)
    (h : chains_coherent b.chains) :
    chains_coherent ((reflood_push_step b nc).1).chains := by
  unfold reflood_push_step
  have h1 : chains_coherent (jfold (absorb_step b.chains.length)
      (finsort nc.positions) b).1.chains := by
    rw [jfold_absorb_chains]
    exact h
  exact chains_coherent_push h1
    (congrArg List.length (jfold_absorb_chains _ _ _)).symm

theorem free_reflood_coherent (pos_id : ℕ) (nbrs ifns : List ℕ) (b : Board)
    (h : chains_coherent b.chains) :
    chains_coherent (free_reflood_phase pos_id nbrs ifns b).1.chains := by
  unfold free_reflood_phase
  split
  · exact jfold_pres (fun b2 a2 hh => reflood_push_step_coherent b2 a2 hh) _ _
      (chains_coherent_set_none h)
  · split
    · exact chains_coherent_set_some h rfl
    · exact chains_coherent_set_none h

theorem phase_place_coherent (b : Board) (pos : ℕ) (fc oc : Tile) (b1 : Board)
    (ms : List Mod) (hco : chains_coherent b.chains)
    (h : phase_place b pos fc oc = Except.ok (b1, ms)) :
    chains_coherent b1.chains := by
  unfold phase_place at h
  split at h
  · exact absurd h (by simp)
  · dsimp only at h
    split at h
    case h_1 pos_id heq1 =>
      split at h
      case h_1 prev_c heq2 =>
        rw [Except.ok.injEq, Prod.mk.injEq] at h
        obtain ⟨hb1, -⟩ := h
        subst hb1
        exact free_reflood_coherent _ _ _ _
          (merge_phase_coherent _ _ _ _ _ _ _
            (jfold_pres (fun b2 a2 hh => capture_step_coherent pos oc b2 a2 hh)
              _ _ hco))
      case h_2 => exact absurd h (by simp)
    case h_2 => exact absurd h (by simp)

theorem phase_act_coherent (b : Board) (action : Move) (fc oc : Tile)
    (b1 : Board) (ms : List Mod) (hco : chains_coherent b.chains)
    (h : phase_act b action fc oc = Except.ok (b1, ms)) :
    chains_coherent b1.chains := by
  cases action with
  | place pos => exact phase_place_coherent b pos fc oc b1 ms hco h
  | coords xy =>
    rw [phase_act, Except.ok.injEq, Prod.mk.injEq] at h
    obtain ⟨hb1, -⟩ := h
    subst hb1
    exact hco
  | pass =>
    rw [phase_act, Except.ok.injEq, Prod.mk.injEq] at h
    obtain ⟨hb1, -⟩ := h
    subst hb1
    exact hco

theorem apply_move_coherent (b : Board) (m : Move) (b2 : Board)
    (hco : chains_coherent b.chains)
    (h : apply_move b m = (Except.ok (), b2)) : chains_coherent b2.chains := by
  unfold apply_move at h
  split at h
  · simp at h
  · dsimp only at h
    split at h
    case h_1 fc oc hfc hoc =>
      split at h
      case h_1 => simp at h
      case h_2 r hok =>
        split at h
        · simp at h
        · rw [Prod.mk.injEq] at h
          obtain ⟨-, hb2⟩ := h
          subst hb2
          refine chains_coherent_congr ?_
            (phase_act_coherent b _ fc oc r.1 r.2 hco hok)
          exact (turn_update_chains r.1 (convert_action b m)).symm
    case h_2 => simp at h

theorem get?_set_self {α : Type} {l : List α} {i : ℕ} {x : α}
    (h : l.get? i = some x) (a : α) : (l.set i a).get? i = some a := by
  rw [List.get?_set, if_pos rfl, h]
  rfl

theorem get?_isSome_lt {α : Type} {l : List α} {i : ℕ} {x : α}
    (h : l.get? i = some x) : i < l.length := by
  by_contra hge
  rw [List.get?_eq_none.mpr (Nat.le_of_not_lt hge)] at h
  exact Option.noConfusion h

theorem foldl_init_pres {α β : Type} {P : β → Prop} {f : β → α → β}
    (hf : ∀ x a, P x → P (f x a)) : ∀ (l : List α) (x : β), P x → P (l.foldl f x)
  | [], _, hx => hx
  | a :: t, x, hx => foldl_init_pres hf t (f x a) (hf x a hx)

theorem jfold_pres_mem {α : Type} {P : Board → Prop}
    {f : Board → α → Board × List Mod} :
    ∀ (l : List α), (∀ b a, a ∈ l → P b → P ((f b a).1)) →
    ∀ (b : Board), P b → P ((jfold f l b).1)
  | [], _, _, hb => hb
  | a :: t, hf, b, hb =>
    jfold_pres_mem t (fun b2 a2 ha2 => hf b2 a2 (List.mem_cons_of_mem _ ha2)) _
      (hf b a (List.mem_cons_self _ _) hb)

theorem get_tile_some (b : Board) (pos : ℕ) (fc : Tile) (hfc : ¬ fc = Tile.dead)
    (h : b.get_tile pos = fc) :
    ∃ s c, b.pos_to_chain.get? pos = some (some s) ∧
      b.chains.get? s = some (some c) ∧ c.tile = fc := by
  unfold Board.get_tile at h
  split at h
  · exact absurd h.symm hfc
  · exact absurd h.symm hfc
  case h_3 s hs =>
    split at h
    case h_1 c hc => exact ⟨s, c, hs, hc, h⟩
    case h_2 => exact absurd h.symm hfc

theorem hash_fields (b b2 : Board) (hp : b2.pos_to_chain = b.pos_to_chain)
    (hc : b2.chains = b.chains) :
    b2.compute_board_hash = b.compute_board_hash := by
  unfold Board.compute_board_hash Board.get_tile
  rw [hp, hc]

theorem turn_update_ptc (r : Board) (action : Move) :
    (turn_update r action).pos_to_chain = r.pos_to_chain := by
  unfold turn_update
  split <;> rfl

theorem hash_ne_of_get_tile_ne (b b2 : Board) (pos : ℕ)
    (hlen : b2.pos_to_chain.length = b.pos_to_chain.length)
    (hlt : pos < b.pos_to_chain.length)
    (hne : ¬ b2.get_tile pos = b.get_tile pos) :
    ¬ b2.compute_board_hash = b.compute_board_hash := by
  intro h
  unfold Board.compute_board_hash at h
  have h1 := congrArg (fun l => l.get? pos) h
  simp only [List.get?_map] at h1
  rw [List.get?_range (by omega : pos < b2.pos_to_chain.length),
    List.get?_range hlt] at h1
  simp only [Option.map_some'] at h1
  exact hne (Option.some.inj h1)

theorem mem_nonpass_hashes (hist : List MoveChange) (x : List Tile) :
    x ∈ nonpass_hashes hist ↔
      ∃ c ∈ hist, ¬ c.action = Move.pass ∧ c.board_hash = x := by
  unfold nonpass_hashes
  simp only [List.mem_map, List.mem_filter, decide_eq_true_eq]
  constructor
  · rintro ⟨c, ⟨hc1, hc2⟩, hc3⟩
    exact ⟨c, hc1, hc2, hc3⟩
  · rintro ⟨c, hc1, hc2, hc3⟩
    exact ⟨c, ⟨hc1, hc2⟩, hc3⟩

theorem nonpass_hashes_append (hist : List MoveChange) (c : MoveChange) :
    nonpass_hashes (hist ++ [c]) = nonpass_hashes hist ++
      (if c.action = Move.pass then [] else [c.board_hash]) := by
  unfold nonpass_hashes
  by_cases hc : c.action = Move.pass <;>
    simp [List.filter_append, List.filter_cons, hc]

theorem finsort_nodup (s : Finset ℕ) : (finsort s).Nodup := by
  unfold finsort
  split
  · exact List.nodup_nil
  · exact List.Nodup.filter _ (List.nodup_range _)

theorem placing_color_cases (t : Turn) (fc : Tile)
    (h : t.get_placing_color = some fc) : fc = Tile.black ∨ fc = Tile.white := by
  cases t with
  | black => exact Or.inl (Option.some.inj h).symm
  | white => exact Or.inr (Option.some.inj h).symm
  | none => exact Option.noConfusion h

theorem jfold_ptc {α : Type} {f : Board → α → Board × List Mod}
    (hf : ∀ b a, (f b a).1.pos_to_chain = b.pos_to_chain) :
    ∀ (l : List α) (b : Board), (jfold f l b).1.pos_to_chain = b.pos_to_chain
  | [], _ => rfl
  | a :: t, b => (jfold_ptc hf t _).trans (hf b a)

theorem capture_adj_step_ptc (pos cid : ℕ) (b : Board) (adj : ℕ) :
    ((capture_adj_step pos cid b adj).1).pos_to_chain = b.pos_to_chain := by
  unfold capture_adj_step
  split
  · split
    · rfl
    · split
      · split <;> rfl
      · rfl
  · rfl

theorem capture_step_ptc (pos : ℕ) (oc : Tile) (b : Board) (n : ℕ) :
    ((capture_step pos oc b n).1).pos_to_chain = b.pos_to_chain := by
  unfold capture_step
  split
  · split
    · split
      · rfl
      · dsimp only
        split
        · rfl
        · exact jfold_ptc (capture_adj_step_ptc pos _) _ _
    · rfl
  · rfl

theorem capture_phase_ptc (pos : ℕ) (oc : Tile) (nbrs : List ℕ) (b : Board) :
    (capture_phase pos oc nbrs b).1.pos_to_chain = b.pos_to_chain :=
  jfold_ptc (capture_step_ptc pos oc) nbrs b

theorem free_at_set (pid : ℕ) (b : Board) (i : ℕ) (x : Chain)
    (h : free_at pid b) (hx : i = pid → x.tile = Tile.free) :
    free_at pid (set_chain b i (some x)) := by
  obtain ⟨w, hw, hwt⟩ := h
  unfold free_at set_chain
  dsimp only
  rw [List.get?_set]
  by_cases hii : i = pid
  · rw [if_pos hii, hw]
    exact ⟨x, rfl, hx hii⟩
  · rw [if_neg hii]
    exact ⟨w, hw, hwt⟩

theorem capture_adj_step_free_at (pos cid pid : ℕ) (b : Board) (adj : ℕ)
    (h : free_at pid b) : free_at pid ((capture_adj_step pos cid b adj).1) := by
  unfold capture_adj_step
  split
  case h_1 id heq =>
    split
    · exact h
    · split
      case h_1 c heq2 =>
        split
        · exact h
        · refine free_at_set pid b id _ h ?_
          intro hid
          obtain ⟨w, hw, hwt⟩ := h
          rw [hid] at heq2
          have h3 : c = w := Option.some.inj (Option.some.inj (heq2.symm.trans hw))
          show c.tile = Tile.free
          rw [h3]
          exact hwt
      case h_2 => exact h
  case h_2 => exact h

theorem capture_step_free_at (pos : ℕ) (oc : Tile) (pid : ℕ) (b : Board) (n : ℕ)
    (h : free_at pid b) : free_at pid ((capture_step pos oc b n).1) := by
  unfold capture_step
  split
  case h_1 cid heq =>
    split
    case h_1 c heq2 =>
      split
      · exact h
      · dsimp only
        split
        · refine free_at_set pid b cid _ h ?_
          intro hid
          obtain ⟨w, hw, hwt⟩ := h
          rw [hid] at heq2
          have h3 : c = w := Option.some.inj (Option.some.inj (heq2.symm.trans hw))
          show c.tile = Tile.free
          rw [h3]
          exact hwt
        · refine jfold_pres
            (fun b2 a2 hh => capture_adj_step_free_at pos cid pid b2 a2 hh) _ _ ?_
          exact free_at_set pid b cid _ h (fun _ => rfl)
    case h_2 => exact h
  case h_2 => exact h

theorem merge_collect_ptc : ∀ (l : List ℕ) (b : Board),
    (merge_collect l b).board.pos_to_chain = b.pos_to_chain
  | [], _ => rfl
  | other :: rest, b => by
    unfold merge_collect
    split
    · exact merge_collect_ptc rest _
    · exact merge_collect_ptc rest b

theorem merge_collect_get_not_mem : ∀ (l : List ℕ) (b : Board) (k : ℕ),
    ¬ k ∈ l → (merge_collect l b).board.chains.get? k = b.chains.get? k
  | [], _, _, _ => rfl
  | other :: rest, b, k, hk => by
    unfold merge_collect
    split
    · rw [merge_collect_get_not_mem rest _ k
        (fun hmem => hk (List.mem_cons_of_mem _ hmem))]
      show (b.chains.set other Option.none).get? k = b.chains.get? k
      rw [List.get?_set, if_neg (fun h => hk (by
        rw [← h]
        exact List.mem_cons_self other rest))]
    · exact merge_collect_get_not_mem rest b k
        (fun hmem => hk (List.mem_cons_of_mem _ hmem))

theorem friendly_sorted_mem (b : Board) (nbrs : List ℕ) (fc : Tile) (one : ℕ)
    (h : one ∈ friendly_sorted b nbrs fc) :
    ∃ c, b.chains.get? one = some (some c) ∧ c.tile = fc := by
  unfold friendly_sorted at h
  rw [mem_finsort, List.mem_toFinset, List.mem_filter] at h
  obtain ⟨-, hpred⟩ := h
  split at hpred
  case h_1 c heq => exact ⟨c, heq, of_decide_eq_true hpred⟩
  case h_2 => exact Bool.noConfusion hpred

theorem flood_aux_tile (tile : ℕ → Tile) (nbrs : ℕ → List ℕ) (c : Tile) :
    ∀ (fuel : ℕ) (q : List ℕ) (ps ad li : Finset ℕ),
    (∀ x ∈ q, tile x = c) → (∀ x ∈ ps, tile x = c) →
    ∀ x ∈ (flood_aux tile nbrs c fuel q ps ad li).1, tile x = c
  | 0, _, _, _, _, _, hps => hps
  | _ + 1, [], _, _, _, _, hps => hps
  | fuel + 1, cur :: queue, ps, ad, li, hq, hps => by
    rw [flood_aux]
    split
    · exact flood_aux_tile tile nbrs c fuel queue ps ad li
        (fun x hx => hq x (List.mem_cons_of_mem _ hx)) hps
    · refine flood_aux_tile tile nbrs c fuel _ _ _ _ ?_ ?_
      · intro x hx
        rcases List.mem_append.mp hx with hx1 | hx2
        · exact hq x (List.mem_cons_of_mem _ hx1)
        · exact of_decide_eq_true (List.mem_filter.mp hx2).2
      · intro x hx
        rcases Finset.mem_insert.mp hx with hx1 | hx2
        · exact hx1 ▸ hq cur (List.mem_cons_self _ _)
        · exact hps x hx2

theorem floodfill_tile_mem (tile : ℕ → Tile) (nbrs : ℕ → List ℕ)
    (pos id fuel x : ℕ)
    (hx : x ∈ (floodfill tile nbrs pos id fuel).positions) :
    tile x = tile pos := by
  have hx2 : x ∈ (flood_aux tile nbrs (tile pos) fuel [pos] ∅ ∅ ∅).1 := hx
  refine flood_aux_tile tile nbrs (tile pos) fuel [pos] ∅ ∅ ∅ ?_ ?_ x hx2
  · intro y hy
    rw [List.mem_singleton.mp hy]
  · intro y hy
    exact absurd hy (Finset.not_mem_empty y)

theorem jfold_absorb_ptc_mem (id : ℕ) : ∀ (l : List ℕ) (b : Board) (pos s : ℕ),
    b.pos_to_chain.get? pos = some (some s) →
    (jfold (absorb_step id) l b).1.pos_to_chain.get? pos =
      (if pos ∈ l then some (some id) else some (some s))
  | [], _, pos, _, hs => by
    rw [if_neg (List.not_mem_nil pos)]
    exact hs
  | p :: t, b, pos, s, hs => by
    show (jfold (absorb_step id) t ((absorb_step id b p).1)).1.pos_to_chain.get?
      pos = _
    by_cases hp : p = pos
    · subst hp
      have hb2 : ((absorb_step id b p).1).pos_to_chain.get? p = some (some id) := by
        unfold absorb_step
        rw [hs]
        exact get?_set_self hs _
      rw [jfold_absorb_ptc_mem id t _ p id hb2]
      by_cases hmem : p ∈ t
      · rw [if_pos hmem, if_pos (List.mem_cons_self _ _)]
      · rw [if_neg hmem, if_pos (List.mem_cons_self _ _)]
    · have hb2 : ((absorb_step id b p).1).pos_to_chain.get? pos = some (some s) := by
        unfold absorb_step
        split
        · show (b.pos_to_chain.set p _).get? pos = _
          rw [List.get?_set, if_neg hp]
          exact hs
        · exact hs
      rw [jfold_absorb_ptc_mem id t _ pos s hb2]
      by_cases hmem : pos ∈ t
      · rw [if_pos hmem, if_pos (List.mem_cons_of_mem _ hmem)]
      · rw [if_neg hmem, if_neg (fun hx => by
          rcases List.mem_cons.mp hx with h1 | h2
          · exact hp h1.symm
          · exact hmem h2)]

theorem reflood_push_step_tile (b : Board) (nc : Chain) (pos : ℕ) (fc : Tile)
    (hfc : ¬ fc = Tile.dead) (hnc : pos ∈ nc.positions → nc.tile = fc)
    (h : b.get_tile pos = fc) :
    ((reflood_push_step b nc).1).get_tile pos = fc := by
  obtain ⟨s, c, hptc, hchain, htile⟩ := get_tile_some b pos fc hfc h
  have hchains := jfold_absorb_chains b.chains.length (finsort nc.positions) b
  have hptc2 := jfold_absorb_ptc_mem b.chains.length (finsort nc.positions)
    b pos s hptc
  unfold reflood_push_step Board.get_tile push_chain
  dsimp only
  rw [hptc2]
  by_cases hmem : pos ∈ finsort nc.positions
  · rw [if_pos hmem]
    dsimp only
    rw [hchains, List.get?_concat_length]
    dsimp only
    exact hnc ((mem_finsort _ _).mp hmem)
  · rw [if_neg hmem]
    dsimp only
    rw [hchains, List.get?_append (get?_isSome_lt hchain), hchain]
    exact htile

theorem reflood_filtered_mem (cs : List (Option Chain)) :
    ∀ (floods acc : List Chain) (x : Chain),
    x ∈ floods.foldl (fun acc2 nc =>
      if chain_subset_any cs nc.positions then acc2
      else if acc2.any (fun c => decide (c.positions ⊆ nc.positions)) then acc2
      else acc2 ++ [nc]) acc → x ∈ acc ∨ x ∈ floods
  | [], _, _, hx => Or.inl hx
  | nc :: rest, acc, x, hx => by
    rw [List.foldl_cons] at hx
    rcases reflood_filtered_mem cs rest _ x hx with h1 | h2
    · split at h1
      · exact Or.inl h1
      · split at h1
        · exact Or.inl h1
        · rcases List.mem_append.mp h1 with h3 | h4
          · exact Or.inl h3
          · exact Or.inr (by
              rw [List.mem_singleton.mp h4]
              exact List.mem_cons_self _ _)
    · exact Or.inr (List.mem_cons_of_mem _ h2)

theorem free_reflood_tile (pos_id : ℕ) (nbrs ifns : List ℕ) (b : Board)
    (pos : ℕ) (fc : Tile) (hfc : ¬ fc = Tile.dead)
    (h : b.get_tile pos = fc)
    (hpid : ∀ s, b.pos_to_chain.get? pos = some (some s) → ¬ s = pos_id) :
    ((free_reflood_phase pos_id nbrs ifns b).1).get_tile pos = fc := by
  obtain ⟨s, c, hptc, hchain, htile⟩ := get_tile_some b pos fc hfc h
  have hs : ¬ s = pos_id := hpid s hptc
  have hset : ∀ (x : Option Chain), (set_chain b pos_id x).get_tile pos = fc := by
    intro x
    unfold Board.get_tile set_chain
    dsimp only
    rw [hptc]
    dsimp only
    rw [List.get?_set, if_neg (fun hh => hs hh.symm), hchain]
    exact htile
  unfold free_reflood_phase
  split
  · dsimp only
    refine @jfold_pres_mem Chain (fun b3 => b3.get_tile pos = fc)
      reflood_push_step _ ?_ _ (hset Option.none)
    intro b2 nc hmem hb2
    refine reflood_push_step_tile b2 nc pos fc hfc ?_ hb2
    intro hpos
    rcases reflood_filtered_mem _ _ _ nc hmem with h1 | h2
    · exact absurd h1 (List.not_mem_nil nc)
    · rw [List.mem_map] at h2
      obtain ⟨n, hn, hnc⟩ := h2
      subst hnc
      have h3 := floodfill_tile_mem b.get_tile b.neighbors n usize_max
        (b.flood_fuel n) pos hpos
      exact h3.symm.trans h
  · split
    · exact hset _
    · exact hset Option.none

theorem merge_phase_tile (pos : ℕ) (fc : Tile) (nbrs fns nfns frs : List ℕ)
    (b : Board) (pos_id : ℕ)
    (hco : chains_coherent b.chains)
    (hnodup : frs.Nodup)
    (hfrs : ∀ one ∈ frs, ∃ c, b.chains.get? one = some (some c) ∧ c.tile = fc)
    (hfree : free_at pos_id b)
    (hptc : b.pos_to_chain.get? pos = some (some pos_id))
    (hfc : ¬ fc = Tile.free) :
    ((merge_phase pos fc nbrs fns nfns frs b).1).get_tile pos = fc ∧
    (∀ s, ((merge_phase pos fc nbrs fns nfns frs b).1).pos_to_chain.get? pos =
      some (some s) → ¬ s = pos_id) := by
  obtain ⟨w, hw, hwt⟩ := hfree
  have hlt : pos_id < b.chains.length := get?_isSome_lt hw
  unfold merge_phase
  match frs, hnodup, hfrs with
  | [], _, _ =>
    constructor
    · unfold Board.get_tile push_chain set_ptc
      dsimp only
      rw [get?_set_self hptc _]
      dsimp only
      rw [List.get?_concat_length]
    · intro s hsget
      have h2 : (some (some b.chains.length) : Option (Option ℕ)) = some (some s) :=
        (get?_set_self hptc (some b.chains.length)).symm.trans hsget
      have h3 := Option.some.inj (Option.some.inj h2)
      intro h4
      rw [h4] at h3
      omega
  | [one], _, hfrs =>
    obtain ⟨c, hc, hct⟩ := hfrs one (List.mem_cons_self _ _)
    have hcid : c.id = one := hco one c hc
    dsimp only
    rw [hc]
    constructor
    · unfold Board.get_tile set_ptc set_chain
      dsimp only
      rw [get?_set_self hptc _]
      dsimp only
      rw [hcid, get?_set_self hc _]
      exact hct
    · intro s hsget
      have h2 : (some (some c.id) : Option (Option ℕ)) = some (some s) :=
        (get?_set_self hptc (some c.id)).symm.trans hsget
      have h3 := Option.some.inj (Option.some.inj h2)
      intro h4
      have hone : one = pos_id := by rw [← hcid, h3, h4]
      rw [← hone] at hw
      have hcw : c = w := Option.some.inj (Option.some.inj (hc.symm.trans hw))
      refine hfc ?_
      rw [← hct, hcw]
      exact hwt
  | m0 :: m1 :: rest', hnodup, hfrs =>
    obtain ⟨c, hc, hct⟩ := hfrs m0 (List.mem_cons_self _ _)
    have hcid : c.id = m0 := hco m0 c hc
    have hm0 : ¬ m0 ∈ (m1 :: rest') := (List.nodup_cons.mp hnodup).1
    have hacc : (merge_collect (m1 :: rest') b).board.chains.get? m0 =
        some (some c) := by
      rw [merge_collect_get_not_mem _ _ _ hm0]
      exact hc
    dsimp only
    rw [hacc]
    have hmcptc : (merge_collect (m1 :: rest') b).board.pos_to_chain.get? pos =
        some (some pos_id) := by
      rw [merge_collect_ptc]
      exact hptc
    have hr1 := jfold_absorb_ptc_mem c.id
      (finsort (merge_collect (m1 :: rest') b).positions)
      (merge_collect (m1 :: rest') b).board pos pos_id hmcptc
    have hrch := jfold_absorb_chains c.id
      (finsort (merge_collect (m1 :: rest') b).positions)
      (merge_collect (m1 :: rest') b).board
    obtain ⟨v, hv⟩ : ∃ v, (jfold (absorb_step c.id)
        (finsort (merge_collect (m1 :: rest') b).positions)
        (merge_collect (m1 :: rest') b).board).1.pos_to_chain.get? pos =
        some (some v) := by
      by_cases hmem : pos ∈ finsort (merge_collect (m1 :: rest') b).positions
      · rw [if_pos hmem] at hr1
        exact ⟨c.id, hr1⟩
      · rw [if_neg hmem] at hr1
        exact ⟨pos_id, hr1⟩
    constructor
    · unfold Board.get_tile set_ptc set_chain
      dsimp only
      rw [get?_set_self hv _]
      dsimp only
      rw [hcid] at hrch
      rw [hcid, get?_set_self (show (jfold (absorb_step m0)
        (finsort (merge_collect (m1 :: rest') b).positions)
        (merge_collect (m1 :: rest') b).board).1.chains.get? m0 =
          some (some c) from by rw [hrch]; exact hacc) _]
      exact hct
    · intro s hsget
      have h2 : (some (some c.id) : Option (Option ℕ)) = some (some s) :=
        (get?_set_self hv (some c.id)).symm.trans hsget
      have h3 := Option.some.inj (Option.some.inj h2)
      intro h4
      have hone : m0 = pos_id := by rw [← hcid, h3, h4]
      rw [← hone] at hw
      have hcw : c = w := Option.some.inj (Option.some.inj (hc.symm.trans hw))
      refine hfc ?_
      rw [← hct, hcw]
      exact hwt

theorem phase_place_free (b : Board) (pos : ℕ) (fc oc : Tile) (b1 : Board)
    (ms : List Mod) (h : phase_place b pos fc oc = Except.ok (b1, ms)) :
    b.get_tile pos = Tile.free := by
  unfold phase_place at h
  split at h
  · exact absurd h (by simp)
  case isFalse hguard => exact not_not.mp hguard

theorem phase_place_tile (b : Board) (pos : ℕ) (fc oc : Tile) (b1 : Board)
    (ms : List Mod) (hco : chains_coherent b.chains)
    (hfcf : ¬ fc = Tile.free) (hfcd : ¬ fc = Tile.dead)
    (h : phase_place b pos fc oc = Except.ok (b1, ms)) :
    b1.get_tile pos = fc := by
  have hfree := phase_place_free b pos fc oc b1 ms h
  obtain ⟨s0, c0, hptc0, hch0, hct0⟩ := get_tile_some b pos Tile.free
    (by simp) hfree
  unfold phase_place at h
  split at h
  · exact absurd h (by simp)
  · dsimp only at h
    split at h
    case h_1 pos_id heq1 =>
      split at h
      case h_1 prev_c heq2 =>
        rw [Except.ok.injEq, Prod.mk.injEq] at h
        obtain ⟨hb1, -⟩ := h
        subst hb1
        have hpid : s0 = pos_id := by
          rw [capture_phase_ptc] at heq1
          exact Option.some.inj (Option.some.inj (hptc0.symm.trans heq1))
        refine free_reflood_tile pos_id _ _ _ pos fc hfcd ?_ ?_
        · exact (merge_phase_tile pos fc _ _ _ _ _ pos_id
            (jfold_pres (fun b2 a2 hh => capture_step_coherent pos oc b2 a2 hh)
              _ _ hco)
            (finsort_nodup _)
            (fun one hone => friendly_sorted_mem _ _ fc one hone)
            (by
              rw [← hpid]
              exact jfold_pres
                (fun b2 a2 hh => capture_step_free_at pos oc s0 b2 a2 hh) _ _
                ⟨c0, hch0, hct0⟩)
            heq1 hfcf).1
        · exact (merge_phase_tile pos fc _ _ _ _ _ pos_id
            (jfold_pres (fun b2 a2 hh => capture_step_coherent pos oc b2 a2 hh)
              _ _ hco)
            (finsort_nodup _)
            (fun one hone => friendly_sorted_mem _ _ fc one hone)
            (by
              rw [← hpid]
              exact jfold_pres
                (fun b2 a2 hh => capture_step_free_at pos oc s0 b2 a2 hh) _ _
                ⟨c0, hch0, hct0⟩)
            heq1 hfcf).2
      case h_2 => exact absurd h (by simp)
    case h_2 => exact absurd h (by simp)

theorem superko_push (b rb : Board) (a0 act : Move) (ch : MoveChange)
    (hca : ch.action = a0) (hcb : ch.board_hash = b.compute_board_hash)
    (hhist : rb.history = b.history)
    (hpw : (nonpass_hashes b.history).Pairwise (fun x y => ¬ x = y))
    (hmem : ¬ b.compute_board_hash ∈ nonpass_hashes b.history)
    (hrep : ¬ repetition_hit (turn_update rb act).history
      (turn_update rb act).compute_board_hash)
    (hne : a0 = Move.pass → rb.compute_board_hash = b.compute_board_hash)
    (hch2 : ¬ a0 = Move.pass → ¬ rb.compute_board_hash = b.compute_board_hash) :
    (nonpass_hashes ({ turn_update rb act with
        history := (turn_update rb act).history ++ [ch] } : Board).history).Pairwise
      (fun x y => ¬ x = y) ∧
    ¬ ({ turn_update rb act with
        history := (turn_update rb act).history ++ [ch] } : Board).compute_board_hash ∈
      nonpass_hashes ({ turn_update rb act with
        history := (turn_update rb act).history ++ [ch] } : Board).history := by
  have hth : (turn_update rb act).history = b.history :=
    (turn_update_history rb act).trans hhist
  have hbh : ({ turn_update rb act with
      history := (turn_update rb act).history ++ [ch] } : Board).compute_board_hash
      = rb.compute_board_hash :=
    hash_fields rb _ (turn_update_ptc rb act) (turn_update_chains rb act)
  have hhh : ({ turn_update rb act with
      history := (turn_update rb act).history ++ [ch] } : Board).history =
      b.history ++ [ch] := by
    show (turn_update rb act).history ++ [ch] = _
    rw [hth]
  constructor
  · rw [hhh, nonpass_hashes_append, hca, hcb]
    by_cases ha : a0 = Move.pass
    · rw [if_pos ha, List.append_nil]
      exact hpw
    · rw [if_neg ha, List.pairwise_append]
      refine ⟨hpw, List.pairwise_singleton _ _, ?_⟩
      intro x hx y hy
      rw [List.mem_singleton] at hy
      subst hy
      intro hxy
      exact hmem (hxy ▸ hx)
  · intro hx
    rw [hbh, hhh, nonpass_hashes_append, hca, hcb] at hx
    by_cases ha : a0 = Move.pass
    · rw [if_pos ha, List.append_nil] at hx
      rw [hne ha] at hx
      exact hmem hx
    · rw [if_neg ha, List.mem_append] at hx
      rcases hx with h1 | h2
      · refine hrep ?_
        rw [mem_nonpass_hashes] at h1
        obtain ⟨c2, hc2, hc2a, hc2h⟩ := h1
        constructor
        · rw [hth]
          exact List.length_pos.mpr (List.ne_nil_of_mem hc2)
        · refine ⟨c2, ?_, hc2a, ?_⟩
          · rw [hth]
            exact hc2
          · rw [hc2h]
            exact (hash_fields rb _ (turn_update_ptc rb act)
              (turn_update_chains rb act)).symm
      · rw [List.mem_singleton] at h2
        exact hch2 ha h2

theorem superko_step (b : Board) (m : Move) (b2 : Board)
    (h : apply_move b m = (Except.ok (), b2)) (hok : superko_ok b) :
    superko_ok b2 := by
  obtain ⟨hco, hpw, hmem⟩ := hok
  refine ⟨apply_move_coherent b m b2 hco h, ?_⟩
  unfold apply_move at h
  split at h
  · exact absurd h (by simp)
  case isFalse hturn =>
    dsimp only at h
    split at h
    case h_1 fc oc hfc hoc =>
      split at h
      case h_1 e herr => exact absurd h (by simp)
      case h_2 r hphase =>
        obtain ⟨rb, rm⟩ := r
        split at h
        case isTrue => exact absurd h (by simp)
        case isFalse hrep =>
          rw [Prod.mk.injEq] at h
          obtain ⟨-, hb2⟩ := h
          subst hb2
          have hframe := frame_phase_act b (convert_action b m) fc oc rb rm hphase
          have hhist : rb.history = b.history := hframe.2.2.2.1
          have hlen : rb.pos_to_chain.length = b.pos_to_chain.length :=
            hframe.2.2.2.2
          have hpasseq : m = Move.pass →
              rb.compute_board_hash = b.compute_board_hash := by
            intro hm
            subst hm
            simp only [convert_action, phase_act, Except.ok.injEq,
              Prod.mk.injEq] at hphase
            rw [← hphase.1]
          have hplace : ¬ m = Move.pass →
              ¬ rb.compute_board_hash = b.compute_board_hash := by
            intro hm
            obtain ⟨pos, hpos⟩ : ∃ pos, convert_action b m = Move.place pos := by
              cases m with
              | place p => exact ⟨p, rfl⟩
              | coords xy => exact ⟨b.to_pos xy.1 xy.2, rfl⟩
              | pass => exact absurd rfl hm
            rw [hpos] at hphase
            have hpp : phase_place b pos fc oc = Except.ok (rb, rm) := hphase
            have hfree := phase_place_free b pos fc oc rb rm hpp
            obtain ⟨s0, c0, hptc0, -, -⟩ := get_tile_some b pos Tile.free
              (by simp) hfree
            have hfccase := placing_color_cases b.turn fc hfc
            have hfcf : ¬ fc = Tile.free := by
              rcases hfccase with h1 | h1 <;> simp [h1]
            have hfcd : ¬ fc = Tile.dead := by
              rcases hfccase with h1 | h1 <;> simp [h1]
            have htile := phase_place_tile b pos fc oc rb rm hco hfcf hfcd hpp
            refine hash_ne_of_get_tile_ne b rb pos hlen
              (get?_isSome_lt hptc0) ?_
            rw [htile, hfree]
            exact hfcf
          exact superko_push b rb m (convert_action b m)
            { action := m, previous_turn := b.turn,
              board_hash := b.compute_board_hash, mods := rm }
            rfl rfl hhist hpw hmem hrep hpasseq hplace
    case h_2 => exact absurd h (by simp)

theorem from_rep_step_pres (rep_tiles : List Tile) (bs : Board × Finset ℕ)
    (p : ℕ) (h : bs.1.history = [] ∧ chains_coherent bs.1.chains) :
    (from_rep_step rep_tiles bs p).1.history = [] ∧
      chains_coherent (from_rep_step rep_tiles bs p).1.chains := by
  unfold from_rep_step
  dsimp only
  split
  · exact h
  · split
    · exact h
    · exact ⟨h.1, chains_coherent_push h.2 rfl⟩

theorem from_rep_base (rep : List Char) (size : ℕ) (t : Turn) (komi : ℚ)
    (b : Board) (h : Board.from_rep rep size t komi = Except.ok b) :
    b.history = [] ∧ chains_coherent b.chains := by
  unfold Board.from_rep at h
  split at h
  · exact absurd h (by simp)
  · split at h
    case h_1 => exact absurd h (by simp)
    case h_2 rep_tiles heq =>
      rw [Except.ok.injEq] at h
      subst h
      exact @foldl_init_pres ℕ (Board × Finset ℕ)
        (fun bs => bs.1.history = [] ∧ chains_coherent bs.1.chains)
        (from_rep_step rep_tiles)
        (fun bs p hp => from_rep_step_pres rep_tiles bs p hp)
        (List.range (size ^ 2)) (Board.new size t komi, ∅)
        ⟨rfl, fun id c hc => absurd hc (by simp [Board.new])⟩

theorem new_superko (size : ℕ) (t : Turn) (komi : ℚ) :
    superko_ok (Board.new size t komi) := by
  refine ⟨?_, ?_, ?_⟩
  · intro id c hc
    exact absurd hc (by simp [Board.new])
  · exact List.Pairwise.nil
  · exact List.not_mem_nil _

theorem reachable_superko (b : Board) (hb : Reachable b) : superko_ok b := by
  induction hb with
  | of_rep rep size t komi b1 h =>
    obtain ⟨h1, h2⟩ := from_rep_base rep size t komi b1 h
    refine ⟨h2, ?_, ?_⟩
    · rw [h1]
      exact List.Pairwise.nil
    · rw [h1]
      exact List.not_mem_nil _
  | of_new size t komi => exact new_superko size t komi
  | step b1 m b2 hb1 h ih => exact superko_step b1 m b2 h ih

/-- C3: positional superko. For every board reachable from a parsed or fresh
position by successful `apply_move` calls, the `board_hash` values recorded
by the non-Pass entries of `history` are pairwise distinct and the current
position hash differs from every one of them; moreover whenever the
tentative application of a move (the mutation phase followed by the turn
advance) produces a position whose hash matches a recorded non-Pass hash,
`apply_move` returns the `Repetition` error with the board rolled back to
exactly its pre-call state. -/
theorem positional_superko (b : Board) (hb : Reachable b) :
    ((nonpass_hashes b.history).Pairwise (fun x y => ¬ x = y) ∧
      ¬ b.compute_board_hash ∈ nonpass_hashes b.history) ∧
    (∀ (m : Move) (fc oc : Tile) (r : Board × List Mod),
      ¬ b.turn = Turn.none →
      b.turn.get_placing_color = some fc →
      b.turn.next.get_placing_color = some oc →
      phase_act b (convert_action b m) fc oc = Except.ok r →
      repetition_hit (turn_update r.1 (convert_action b m)).history
        (turn_update r.1 (convert_action b m)).compute_board_hash →
      apply_move b m = (Except.error BoardErr.repetition, b)) := by
  constructor
  · exact ⟨(reachable_superko b hb).2.1, (reachable_superko b hb).2.2⟩
  · intro m fc oc r hturn hfc hoc hphase hhit
    unfold apply_move
    rw [if_neg hturn]
    dsimp only
    split
    case h_1 fc2 oc2 hfc2 hoc2 =>
      have hfce : fc2 = fc := Option.some.inj (hfc2.symm.trans hfc)
      have hoce : oc2 = oc := Option.some.inj (hoc2.symm.trans hoc)
      subst hfce
      subst hoce
      split
      case h_1 e herr =>
        rw [hphase] at herr
        exact absurd herr (by simp)
      case h_2 r2 hok =>
        rw [hphase] at hok
        have hr2 : r2 = r := (Except.ok.inj hok).symm
        subst hr2
        split
        case isTrue =>
          rw [Prod.mk.injEq]
          exact ⟨rfl, rollback_of_phase b (convert_action b m) fc2 oc2 r2 hphase
            m b.compute_board_hash⟩
        case isFalse hnot => exact absurd hhit hnot
    case h_2 h1 h2 hno =>
      exact absurd (hno fc oc) (by
        rw [hfc, hoc]
        exact fun hcontra => hcontra rfl rfl)

theorem slot_ok_get {b : Board} {id : ℕ} {c : Chain}
    (hinv : chain_inv b) (hc : b.chains.get? id = some (some c)) :
    ∀ p ∈ c.positions, b.pos_to_chain.get? p = some (some id) := by
  have h1 := hinv.1 id (List.mem_range.mpr (get?_isSome_lt hc))
  unfold slot_ok at h1
  rw [hc] at h1
  exact h1

theorem point_ok_get {b : Board} {p id : ℕ}
    (hinv : chain_inv b) (hp : b.pos_to_chain.get? p = some (some id)) :
    ∃ c, b.chains.get? id = some (some c) ∧ p ∈ c.positions := by
  have h1 := hinv.2 p (List.mem_range.mpr (get?_isSome_lt hp))
  unfold point_ok at h1
  rw [hp] at h1
  have h2 : (match b.chains.get? id with
      | some (some c) => p ∈ c.positions
      | _ => False) := h1
  rcases hg : b.chains.get? id with - | oc
  · rw [hg] at h2
    exact False.elim h2
  · rcases oc with - | c3
    · rw [hg] at h2
      exact False.elim h2
    · rw [hg] at h2
      exact ⟨c3, rfl, h2⟩

theorem get_tile_eq_some (b : Board) (p : ℕ) (t : Tile) (htd : ¬ t = Tile.dead) :
    b.get_tile p = t ↔ ∃ id c, b.pos_to_chain.get? p = some (some id) ∧
      b.chains.get? id = some (some c) ∧ c.tile = t := by
  constructor
  · intro h
    obtain ⟨s, c, h1, h2, h3⟩ := get_tile_some b p t htd h
    exact ⟨s, c, h1, h2, h3⟩
  · rintro ⟨id, c, h1, h2, h3⟩
    unfold Board.get_tile
    rw [h1]
    dsimp only
    rw [h2]
    exact h3

theorem tile_positions_biUnion (b : Board) (t : Tile) (htd : ¬ t = Tile.dead)
    (hinv : chain_inv b) (hsz : b.pos_to_chain.length = b.size ^ 2) :
    ((Finset.range b.chains.length).filter
        (fun id => slot_tile b t id = true)).biUnion
      (fun id => slot_positions b id) =
    (Finset.range (b.size ^ 2)).filter (fun p => b.get_tile p = t) := by
  ext p
  simp only [Finset.mem_biUnion, Finset.mem_filter, Finset.mem_range]
  constructor
  · rintro ⟨id, ⟨hlt, hst⟩, hp⟩
    unfold slot_tile at hst
    unfold slot_positions at hp
    rcases hg : b.chains.get? id with - | oc
    · rw [hg] at hst
      exact Bool.noConfusion hst
    rcases oc with - | c
    · rw [hg] at hst
      exact Bool.noConfusion hst
    rw [hg] at hst hp
    have hst2 : c.tile = t := of_decide_eq_true hst
    have hp2 : p ∈ c.positions := hp
    have hptc := slot_ok_get hinv hg p hp2
    refine ⟨?_, ?_⟩
    · rw [← hsz]
      exact get?_isSome_lt hptc
    · rw [get_tile_eq_some b p t htd]
      exact ⟨id, c, hptc, hg, hst2⟩
  · rintro ⟨hlt, ht⟩
    rw [get_tile_eq_some b p t htd] at ht
    obtain ⟨id, c, h1, h2, h3⟩ := ht
    refine ⟨id, ⟨get?_isSome_lt h2, ?_⟩, ?_⟩
    · unfold slot_tile
      rw [h2]
      exact decide_eq_true h3
    · unfold slot_positions
      rw [h2]
      obtain ⟨c2, hc2, hpc2⟩ := point_ok_get hinv h1
      have hce : c2 = c := Option.some.inj (Option.some.inj (hc2.symm.trans h2))
      exact hce ▸ hpc2

theorem slot_positions_disjoint (b : Board) (hinv : chain_inv b)
    (i1 i2 : ℕ) (hne : ¬ i1 = i2) :
    Disjoint (slot_positions b i1) (slot_positions b i2) := by
  rw [Finset.disjoint_left]
  intro p hp1 hp2
  unfold slot_positions at hp1 hp2
  rcases hg1 : b.chains.get? i1 with - | oc1
  · rw [hg1] at hp1
    exact absurd hp1 (Finset.not_mem_empty p)
  rcases oc1 with - | c1
  · rw [hg1] at hp1
    exact absurd hp1 (Finset.not_mem_empty p)
  rcases hg2 : b.chains.get? i2 with - | oc2
  · rw [hg2] at hp2
    exact absurd hp2 (Finset.not_mem_empty p)
  rcases oc2 with - | c2
  · rw [hg2] at hp2
    exact absurd hp2 (Finset.not_mem_empty p)
  rw [hg1] at hp1
  rw [hg2] at hp2
  have hm1 : p ∈ c1.positions := hp1
  have hm2 : p ∈ c2.positions := hp2
  have h1 := slot_ok_get hinv hg1 p hm1
  have h2 := slot_ok_get hinv hg2 p hm2
  exact hne (Option.some.inj (Option.some.inj (h1.symm.trans h2)))

theorem count_tile_eq (b : Board) (t : Tile) (htd : ¬ t = Tile.dead)
    (hinv : chain_inv b) (hsz : b.pos_to_chain.length = b.size ^ 2) :
    count_tile b t = ∑ id ∈ (Finset.range b.chains.length).filter
      (fun id => slot_tile b t id = true), (slot_positions b id).card := by
  unfold count_tile
  rw [← tile_positions_biUnion b t htd hinv hsz]
  exact Finset.card_biUnion (fun i1 h1 i2 h2 hne =>
    slot_positions_disjoint b hinv i1 i2 hne)

theorem chain_score_eq (b : Board) (s : ℚ) (oc : Option Chain) :
    chain_score b s oc = s + chain_contrib b oc := by
  unfold chain_score chain_contrib
  rcases oc with - | c
  · simp
  · dsimp only
    split
    · split
      · ring
      · split <;> ring
    · split <;> ring

theorem foldl_chain_score (b : Board) : ∀ (l : List (Option Chain)) (s : ℚ),
    l.foldl (chain_score b) s = s + (l.map (chain_contrib b)).sum
  | [], s => by simp
  | oc :: t, s => by
    rw [List.foldl_cons, foldl_chain_score b t, chain_score_eq]
    simp only [List.map_cons, List.sum_cons]
    ring

theorem list_map_sum_range (f : Option Chain → ℚ) : ∀ (l : List (Option Chain)),
    (l.map f).sum = ∑ i ∈ Finset.range l.length, f ((l.get? i).getD Option.none)
  | [] => by simp
  | a :: t => by
    rw [List.map_cons, List.sum_cons, list_map_sum_range f t]
    rw [List.length_cons, Finset.sum_range_succ']
    simp only [List.get?_cons_succ, List.get?_cons_zero, Option.getD_some]
    ring

theorem map_sum_add (f g : Option Chain → ℚ) : ∀ (l : List (Option Chain)),
    (l.map (fun x => f x + g x)).sum = (l.map f).sum + (l.map g).sum
  | [] => by simp
  | a :: t => by
    simp only [List.map_cons, List.sum_cons, map_sum_add f g t]
    ring

theorem owns_iff_spec (b : Board) (c : Chain) (t : Tile)
    (ht : t = Tile.black ∨ t = Tile.white) : owns b c t ↔ spec_owns b c t := by
  constructor
  · rintro ⟨⟨a, ha, hat⟩, hall⟩
    refine ⟨⟨a, ha, ?_, ?_⟩, fun a2 ha2 hnd => (hall a2 ha2).resolve_left hnd⟩
    · rw [hat]
      rcases ht with rfl | rfl <;> simp
    · rw [hat]
      rcases ht with rfl | rfl <;> simp
  · rintro ⟨⟨a, ha, hand, hanf⟩, hall⟩
    refine ⟨⟨a, ha, hall a ha hand⟩, fun a2 ha2 => ?_⟩
    by_cases hd : b.get_tile a2 = Tile.dead
    · exact Or.inl hd
    · exact Or.inr (hall a2 ha2 hd)

theorem chain_contrib_split (b : Board) (oc : Option Chain) :
    chain_contrib b oc = stone_contrib oc + free_territory b oc := by
  unfold chain_contrib stone_contrib free_territory
  rcases oc with - | c
  · simp
  · dsimp only
    by_cases hf : c.tile = Tile.free
    · rw [if_pos hf, if_pos hf,
        if_neg (show ¬ c.tile = Tile.black by rw [hf]; simp),
        if_neg (show ¬ c.tile = Tile.white by rw [hf]; simp), zero_add]
      by_cases hb : owns b c Tile.black
      · rw [if_pos hb, if_pos ((owns_iff_spec b c Tile.black (Or.inl rfl)).mp hb)]
      · rw [if_neg hb,
          if_neg (fun hs => hb ((owns_iff_spec b c Tile.black (Or.inl rfl)).mpr hs))]
        by_cases hw : owns b c Tile.white
        · rw [if_pos hw, if_pos ((owns_iff_spec b c Tile.white (Or.inr rfl)).mp hw)]
        · rw [if_neg hw,
            if_neg (fun hs => hw ((owns_iff_spec b c Tile.white (Or.inr rfl)).mpr hs))]
    · rw [if_neg hf, if_neg hf, add_zero]
      cases hct : c.tile with
      | white => simp [hct]
      | black => simp [hct]
      | dead => simp [hct]
      | free => exact absurd hct hf

theorem stone_contrib_sum (b : Board) (hinv : chain_inv b)
    (hsz : b.pos_to_chain.length = b.size ^ 2) :
    (b.chains.map stone_contrib).sum =
      (count_tile b Tile.black : ℚ) - (count_tile b Tile.white : ℚ) := by
  rw [list_map_sum_range stone_contrib b.chains]
  have hpt : ∀ i, stone_contrib ((b.chains.get? i).getD Option.none) =
      (if slot_tile b Tile.black i = true then ((slot_positions b i).card : ℚ) else 0)
      - (if slot_tile b Tile.white i = true then ((slot_positions b i).card : ℚ) else 0) := by
    intro i
    unfold stone_contrib slot_tile slot_positions
    rcases hg : b.chains.get? i with - | oc
    · simp [hg]
    · rcases oc with - | c
      · simp [hg]
      · dsimp only [Option.getD_some]
        cases hct : c.tile with
        | white => simp [hct]
        | black => simp [hct]
        | dead => simp [hct]
        | free => simp [hct]
  rw [Finset.sum_congr rfl (fun i _ => hpt i), Finset.sum_sub_distrib,
    ← Finset.sum_filter, ← Finset.sum_filter,
    count_tile_eq b Tile.black (by simp) hinv hsz,
    count_tile_eq b Tile.white (by simp) hinv hsz]
  push_cast
  ring

/-- C9: for every board satisfying the chain invariants (positions and chain
arena describe each other, and `pos_to_chain` covers the `size²` board),
`calculate_heuristic` equals `-komi` plus the number of Black stone
positions, minus the number of White stone positions, plus `|C.positions|`
for each Free chain `C` all of whose non-Dead adjacent tiles are Black,
minus `|C.positions|` for each Free chain `C` all of whose non-Dead adjacent
tiles are White, mixed or stone-less Free chains contributing 0; in
particular an all-Free board scores exactly `-komi`. -/
theorem scoring_formula (b : Board) (hinv : chain_inv b)
    (hsz : b.pos_to_chain.length = b.size ^ 2) :
    (calculate_heuristic b = -b.komi + (count_tile b Tile.black : ℚ)
        - (count_tile b Tile.white : ℚ)
        + (b.chains.map (free_territory b)).sum) ∧
    ((∀ p, p < b.size ^ 2 → b.get_tile p = Tile.free) →
      calculate_heuristic b = -b.komi) := by
  have hmain : calculate_heuristic b = -b.komi + (count_tile b Tile.black : ℚ)
      - (count_tile b Tile.white : ℚ) + (b.chains.map (free_territory b)).sum := by
    unfold calculate_heuristic
    rw [foldl_chain_score]
    rw [show b.chains.map (chain_contrib b) = b.chains.map
      (fun oc => stone_contrib oc + free_territory b oc) from
      List.map_congr_left (fun oc _ => chain_contrib_split b oc)]
    rw [map_sum_add, stone_contrib_sum b hinv hsz]
    ring
  refine ⟨hmain, ?_⟩
  intro hfree
  rw [hmain]
  have hcz : ∀ t2, ¬ t2 = Tile.free → count_tile b t2 = 0 := by
    intro t2 hne
    unfold count_tile
    rw [Finset.card_eq_zero, Finset.filter_eq_empty_iff]
    intro p hp
    rw [hfree p (Finset.mem_range.mp hp)]
    exact fun hh => hne hh.symm
  have ht0 : (b.chains.map (free_territory b)).sum = 0 := by
    refine List.sum_eq_zero ?_
    intro x hx
    rw [List.mem_map] at hx
    obtain ⟨oc, hoc, hxe⟩ := hx
    subst hxe
    unfold free_territory
    rcases oc with - | c
    · rfl
    · dsimp only
      split
      · have hno : ∀ t2, ¬ spec_owns b c t2 := by
          intro t2 hsp
          obtain ⟨⟨a, ha, hand, hanf⟩, -⟩ := hsp
          by_cases hlt : a < b.size ^ 2
          · exact hanf (hfree a hlt)
          · refine hand ?_
            unfold Board.get_tile
            rw [List.get?_eq_none.mpr (by rw [hsz]; omega)]
        rw [if_neg (hno Tile.black), if_neg (hno Tile.white)]
      · rfl
  rw [hcz Tile.black (by simp), hcz Tile.white (by simp), ht0]
  push_cast
  ring

/-- Witness for C9 on the 2×2 board `X...` with komi ½ (score 7/2: one Black
stone, three Free points all bordered only by Black). -/
theorem scoring_formula_witness :
    chain_inv boardsc ∧ boardsc.pos_to_chain.length = boardsc.size ^ 2 ∧
    ((calculate_heuristic boardsc = -boardsc.komi
        + (count_tile boardsc Tile.black : ℚ)
        - (count_tile boardsc Tile.white : ℚ)
        + (boardsc.chains.map (free_territory boardsc)).sum) ∧
      ((∀ p, p < boardsc.size ^ 2 → boardsc.get_tile p = Tile.free) →
        calculate_heuristic boardsc = -boardsc.komi)) :=
  ⟨by decide, by decide, scoring_formula boardsc (by decide) (by decide)⟩

/-- Witness for C3 at the 4×4 ko position reached by Black's capture at 6. -/
theorem positional_superko_witness :
    ((nonpass_hashes boardko1.history).Pairwise (fun x y => ¬ x = y) ∧
      ¬ boardko1.compute_board_hash ∈ nonpass_hashes boardko1.history) ∧
    (∀ (m : Move) (fc oc : Tile) (r : Board × List Mod),
      ¬ boardko1.turn = Turn.none →
      boardko1.turn.get_placing_color = some fc →
      boardko1.turn.next.get_placing_color = some oc →
      phase_act boardko1 (convert_action boardko1 m) fc oc = Except.ok r →
      repetition_hit (turn_update r.1 (convert_action boardko1 m)).history
        (turn_update r.1 (convert_action boardko1 m)).compute_board_hash →
      apply_move boardko1 m = (Except.error BoardErr.repetition, boardko1)) :=
  positional_superko boardko1
    (Reachable.step boardko (Move.place 6) boardko1
      (Reachable.of_rep ['.', 'X', 'O', '.', 'X', 'O', '.', 'O', '.', 'X', 'O',
        '.', '.', '.', '.', '.'] 4 Turn.black (1 / 2) boardko (by rfl))
      (by rfl))

end IpvGo
